import Mathlib

/-!
Verification model of the CBC encryption module of the penhas backend
(`app/core/crypto.py`, class `CryptCBC` and the guardian-token helpers).

Modelling conventions:
* Byte strings are `List Nat`; every byte-valued quantity produced by the
  module itself stays below 256, which is tracked by hypotheses where a
  theorem needs it.
* The two library primitives the module calls (`hashlib.md5` and the
  pycryptodome block ciphers DES/AES) are parameters, collected in `Prims`.
  CBC chaining, which pycryptodome performs inside `cipher.encrypt` /
  `cipher.decrypt`, is modelled explicitly (XOR with the previous
  ciphertext block, then the block permutation), together with the length
  checks pycryptodome performs: the IV must be one block long and the
  data length must be a multiple of the cipher block size.
* Python exceptions become `Except PyErr`; the module raises `ValueError`
  for every condition the specification groups under its
  FormatError / ValidationError / PaddingError taxonomy, and the final
  `.decode()` of the guardian helper can raise a `UnicodeDecodeError`,
  kept as a separate constructor.
* `get_random_bytes(8)` is modelled by an explicit `rand` argument to
  `encrypt` (each call draws at most once).
* Python truthiness of optional byte strings (`if self.iv`, `x or y`) is
  modelled by `truthy` / `pyOrBytes`: `None` and `b''` are both falsy.
-/

namespace PenhasCrypto

abbrev Bytes := List Nat

/-- Python exceptions observable from the module: `ValueError msg`
(raised by the module itself and by pycryptodome) and the
`UnicodeDecodeError` of `bytes.decode()`. -/
inductive PyErr where
  | valueError : String → PyErr
  | unicodeDecodeError : PyErr
deriving DecidableEq, Repr

/-- The library primitives `crypto.py` calls but does not implement:
`hashlib.md5(x).digest()` and the raw block permutation of the selected
pycryptodome cipher (one block in, one block out, for a given key). -/
structure Prims where
  md5 : Bytes → Bytes
  blockEnc : Bytes → Bytes → Bytes
  blockDec : Bytes → Bytes → Bytes

/-- The two cipher classes the constructor accepts (`Crypto.Cipher.DES`
and `Crypto.Cipher.AES`). -/
inductive CipherName where
  | des
  | aes
deriving DecidableEq, Repr

/-- The block size of the underlying pycryptodome cipher (DES.block_size
is 8, AES.block_size is 16); this is what `cipher.encrypt` validates
against, independently of the configured `self.blocksize`. -/
def CipherName.blocksizeOf : CipherName → Nat
  | .des => 8
  | .aes => 16

/-- Header modes: `HEADER_SALT`, `HEADER_RANDOMIV`, `HEADER_NONE`. -/
inductive HeaderMode where
  | salt
  | randomiv
  | none
deriving DecidableEq, Repr

/-- Padding methods: `PADDING_STANDARD/NULL/SPACE/NONE`.  The Python
field holds a string; the module only ever dispatches on these four
values, so an unknown-string padding (which would raise) is outside the
model. -/
inductive Padding where
  | standard
  | null
  | space
  | none
deriving DecidableEq, Repr

/-- The state `__init__` stores on `self` (the `cipher_class` field plays
the role of `self.cipher_class`). -/
structure Config where
  passphrase : Bytes
  headerMode : HeaderMode
  padding : Padding
  keysize : Nat
  blocksize : Nat
  iv : Option Bytes
  salt : Option Bytes
  cipherClass : CipherName
deriving DecidableEq, Repr

/-- Python `x or d` for an optional int argument (`keysize or 8`):
`None` and `0` are falsy. -/
def pyOrNat : Option Nat → Nat → Nat
  | Option.none, d => d
  | Option.some n, d => if n = 0 then d else n

/-- Python `x or alt` for an optional byte string (`self.salt or
get_random_bytes(8)`): `None` and `b''` are falsy. -/
def pyOrBytes : Option Bytes → Bytes → Bytes
  | Option.none, alt => alt
  | Option.some b, alt => if b = [] then alt else b

/-- Python truthiness of an optional byte string (`if self.iv`). -/
def truthy : Option Bytes → Bool
  | Option.none => false
  | Option.some b => b ≠ []

/-- Python `str.upper()` as used on the cipher-name argument (ASCII
names only). -/
def pyUpper (s : String) : String := ⟨s.data.map Char.toUpper⟩

/-- `CryptCBC.__init__`: select cipher defaults, then validate the IV
length (only when the IV is truthy) and the salt length (only when the
salt is truthy). -/
def init (passphrase : Bytes) (cipher : String) (headerMode : HeaderMode)
    (padding : Padding) (keysize blocksize : Option Nat)
    (iv salt : Option Bytes) : Except PyErr Config := do
  let (cc, ks, bs) ←
    if pyUpper cipher = "AES" then
      Except.ok (CipherName.aes, pyOrNat keysize 32, pyOrNat blocksize 16)
    else if pyUpper cipher = "DES" then
      Except.ok (CipherName.des, pyOrNat keysize 8, pyOrNat blocksize 8)
    else
      Except.error (PyErr.valueError ("Unsupported cipher: " ++ cipher))
  if truthy iv && (iv.getD []).length != bs then
    Except.error (PyErr.valueError ("IV must be " ++ toString bs ++ " bytes long"))
  else if truthy salt && (salt.getD []).length != 8 then
    Except.error (PyErr.valueError ("Salt must be 8 bytes long"))
  else
    Except.ok ⟨passphrase, headerMode, padding, ks, bs, iv, salt, cc⟩

/-- `_pad_standard`: append `n` bytes of value `n`,
`n = blocksize - len(data) % blocksize`.  (Byte values are modelled as
naturals; the CPython range check on `bytes([n])`, reachable only for
block sizes above 256, is outside the model.) -/
def padStandard (bs : Nat) (data : Bytes) : Bytes :=
  let padLength := bs - data.length % bs
  data ++ List.replicate padLength padLength

/-- Python `data[-n:]` (clamped at the full list, like Python slicing). -/
def pyTakeLast (l : Bytes) (n : Nat) : Bytes := l.drop (l.length - n)

/-- Python `data[:-n]` (empty when `n ≥ len(data)`, like Python slicing). -/
def pyDropLast (l : Bytes) (n : Nat) : Bytes := l.take (l.length - n)

/-- `_unpad_standard`: read the last byte as the pad length; strip only
when it is in `[1, blocksize]` and the trailing bytes all equal it,
otherwise return the input unchanged. -/
def unpadStandard (bs : Nat) (data : Bytes) : Bytes :=
  match data.getLast? with
  | Option.none => data
  | Option.some padLength =>
    if padLength > bs || padLength == 0 then data
    else if (pyTakeLast data padLength).all (fun b => b == padLength) then
      pyDropLast data padLength
    else data

/-- `_pad_null`: append `blocksize - len % blocksize` zero bytes. -/
def padNull (bs : Nat) (data : Bytes) : Bytes :=
  data ++ List.replicate (bs - data.length % bs) 0

/-- Python `data.rstrip(bytes([x]))`. -/
def rstrip (x : Nat) (l : Bytes) : Bytes :=
  (l.reverse.dropWhile (fun b => b == x)).reverse

/-- `_unpad_null`: strip all trailing zero bytes. -/
def unpadNull (data : Bytes) : Bytes := rstrip 0 data

/-- `_pad_space`: append `blocksize - len % blocksize` space (0x20) bytes. -/
def padSpace (bs : Nat) (data : Bytes) : Bytes :=
  data ++ List.replicate (bs - data.length % bs) 32

/-- `_unpad_space`: strip all trailing space bytes. -/
def unpadSpace (data : Bytes) : Bytes := rstrip 32 data

/-- `_pad`: dispatch on the padding method; `PADDING_NONE` requires the
data to be block-aligned already. -/
def pad (cfg : Config) (data : Bytes) : Except PyErr Bytes :=
  match cfg.padding with
  | .standard => Except.ok (padStandard cfg.blocksize data)
  | .null => Except.ok (padNull cfg.blocksize data)
  | .space => Except.ok (padSpace cfg.blocksize data)
  | .none =>
    if data.length % cfg.blocksize != 0 then
      Except.error (PyErr.valueError ("Data length must be multiple of block size when using no padding"))
    else Except.ok data

/-- `_unpad`: dispatch on the padding method (never raises). -/
def unpad (cfg : Config) (data : Bytes) : Bytes :=
  match cfg.padding with
  | .standard => unpadStandard cfg.blocksize data
  | .null => unpadNull data
  | .space => unpadSpace data
  | .none => data

/-- Loop of `_key_from_passphrase`: `while len(material) < keysize:
material += md5(material)`.  The fuel bounds the iteration count; since
MD5 emits 16 bytes per round, `keysize` rounds are always enough. -/
def keyFromPassLoop (md5 : Bytes → Bytes) (ks : Nat) : Nat → Bytes → Bytes
  | 0, material => material
  | fuel + 1, material =>
    if material.length < ks then keyFromPassLoop md5 ks fuel (material ++ md5 material)
    else material

/-- `_key_from_passphrase`: repeated MD5 over the passphrase, truncated
to `keysize`. -/
def keyFromPassphrase (P : Prims) (ks : Nat) (passphrase : Bytes) : Bytes :=
  (keyFromPassLoop P.md5 ks ks (P.md5 passphrase)).take ks

/-- Loop of `_salted_key_and_iv`: `while len(data) < desired: d =
md5(d + passphrase + salt); data += d`.  The fuel bounds the iteration
count; since MD5 emits 16 bytes per round, `desired` rounds are always
enough. -/
def saltedLoop (md5 : Bytes → Bytes) (passphrase salt : Bytes) (desired : Nat) :
    Nat → Bytes → Bytes → Bytes
  | 0, _, data => data
  | fuel + 1, d, data =>
    if data.length < desired then
      saltedLoop md5 passphrase salt desired fuel (md5 (d ++ passphrase ++ salt))
        (data ++ md5 (d ++ passphrase ++ salt))
    else data

/-- `_salted_key_and_iv`: reject a salt that is not 8 bytes, then run
the OpenSSL EVP_BytesToKey loop and split the buffer into key and IV. -/
def saltedKeyAndIv (P : Prims) (ks bs : Nat) (passphrase salt : Bytes) :
    Except PyErr (Bytes × Bytes) :=
  if salt.length ≠ 8 then Except.error (PyErr.valueError ("Salt must be 8 bytes long"))
  else
    let desired := ks + bs
    let data := saltedLoop P.md5 passphrase salt desired desired [] []
    Except.ok (data.take ks, (data.drop ks).take bs)

/-- Byte-wise XOR (CBC chaining step inside pycryptodome). -/
def xorBytes (a b : Bytes) : Bytes := List.zipWith (fun x y => x ^^^ y) a b

/-- CBC encryption chaining: each block is XORed with the previous
ciphertext block (initially the IV) and then put through the block
permutation.  The fuel bounds the number of blocks; the wrappers pass
the data length, which always suffices. -/
def cbcEncAux (P : Prims) (key : Bytes) (bsz : Nat) : Nat → Bytes → Bytes → Bytes
  | 0, _, _ => []
  | fuel + 1, prev, data =>
    if data = [] then []
    else
      P.blockEnc key (xorBytes prev (data.take bsz)) ++
        cbcEncAux P key bsz fuel (P.blockEnc key (xorBytes prev (data.take bsz))) (data.drop bsz)

/-- CBC decryption chaining: each ciphertext block is put through the
inverse block permutation and XORed with the previous ciphertext block
(initially the IV). -/
def cbcDecAux (P : Prims) (key : Bytes) (bsz : Nat) : Nat → Bytes → Bytes → Bytes
  | 0, _, _ => []
  | fuel + 1, prev, data =>
    if data = [] then []
    else
      xorBytes prev (P.blockDec key (data.take bsz)) ++
        cbcDecAux P key bsz fuel (data.take bsz) (data.drop bsz)

/-- `cipher_class.new(key, MODE_CBC, iv)` followed by
`cipher.encrypt(data)`: pycryptodome rejects an IV that is not exactly
one block and data whose length is not a multiple of the cipher block
size. -/
def cbcEncrypt (P : Prims) (cc : CipherName) (key iv data : Bytes) : Except PyErr Bytes :=
  if iv.length ≠ cc.blocksizeOf then
    Except.error (PyErr.valueError ("Incorrect IV length (it must be " ++ toString cc.blocksizeOf ++ " bytes long)"))
  else if data.length % cc.blocksizeOf ≠ 0 then
    Except.error (PyErr.valueError ("Data must be padded to " ++ toString cc.blocksizeOf ++ " byte boundary in CBC mode"))
  else Except.ok (cbcEncAux P key cc.blocksizeOf data.length iv data)

/-- `cipher_class.new(key, MODE_CBC, iv)` followed by
`cipher.decrypt(data)`, with the same pycryptodome length checks. -/
def cbcDecrypt (P : Prims) (cc : CipherName) (key iv data : Bytes) : Except PyErr Bytes :=
  if iv.length ≠ cc.blocksizeOf then
    Except.error (PyErr.valueError ("Incorrect IV length (it must be " ++ toString cc.blocksizeOf ++ " bytes long)"))
  else if data.length % cc.blocksizeOf ≠ 0 then
    Except.error (PyErr.valueError ("Data must be padded to " ++ toString cc.blocksizeOf ++ " byte boundary in CBC mode"))
  else Except.ok (cbcDecAux P key cc.blocksizeOf data.length iv data)

/-- The ASCII bytes of the literal `b"Salted__"`. -/
def saltedMarker : Bytes := [83, 97, 108, 116, 101, 100, 95, 95]

/-- The ASCII bytes of the literal `b"RandomIV"`. -/
def randomivMarker : Bytes := [82, 97, 110, 100, 111, 109, 73, 86]

/-- `CryptCBC.encrypt`: build header and key/IV per header mode, pad,
run CBC, return header ++ ciphertext.  `rand` stands for the
`get_random_bytes(8)` draw (used when the stored salt/IV is falsy). -/
def encrypt (P : Prims) (cfg : Config) (rand : Bytes) (plaintext : Bytes) :
    Except PyErr Bytes := do
  let (key, iv, header) ←
    match cfg.headerMode with
    | .salt => do
      let saltUsed := pyOrBytes cfg.salt rand
      let (key, iv) ← saltedKeyAndIv P cfg.keysize cfg.blocksize cfg.passphrase saltUsed
      Except.ok (key, iv, saltedMarker ++ saltUsed)
    | .randomiv =>
      if cfg.blocksize ≠ 8 then
        Except.error (PyErr.valueError ("RandomIV mode requires 8-byte block cipher"))
      else
        let key := keyFromPassphrase P cfg.keysize cfg.passphrase
        let iv := pyOrBytes cfg.iv rand
        Except.ok (key, iv, randomivMarker ++ iv)
    | .none =>
      if truthy cfg.iv = false then
        Except.error (PyErr.valueError ("IV must be provided when using header_mode=\x27none\x27"))
      else
        Except.ok (keyFromPassphrase P cfg.keysize cfg.passphrase, cfg.iv.getD [], [])
  let padded ← pad cfg plaintext
  let ct ← cbcEncrypt P cfg.cipherClass key iv padded
  Except.ok (header ++ ct)

/-- `CryptCBC.decrypt`: parse the header per header mode (checking the
marker for salt/randomiv), re-derive key and IV, run CBC decryption,
strip padding. -/
def decrypt (P : Prims) (cfg : Config) (ciphertext : Bytes) : Except PyErr Bytes := do
  let (key, iv, body) ←
    match cfg.headerMode with
    | .salt =>
      if saltedMarker.isPrefixOf ciphertext = false then
        Except.error (PyErr.valueError ("Invalid ciphertext header for \x27salt\x27 mode"))
      else do
        let salt := (ciphertext.drop 8).take 8
        let (key, iv) ← saltedKeyAndIv P cfg.keysize cfg.blocksize cfg.passphrase salt
        Except.ok (key, iv, ciphertext.drop 16)
    | .randomiv =>
      if randomivMarker.isPrefixOf ciphertext = false then
        Except.error (PyErr.valueError ("Invalid ciphertext header for \x27randomiv\x27 mode"))
      else
        Except.ok (keyFromPassphrase P cfg.keysize cfg.passphrase,
          (ciphertext.drop 8).take 8, ciphertext.drop 16)
    | .none =>
      if truthy cfg.iv = false then
        Except.error (PyErr.valueError ("IV must be provided when using header_mode=\x27none\x27"))
      else
        Except.ok (keyFromPassphrase P cfg.keysize cfg.passphrase, cfg.iv.getD [], ciphertext)
  let padded ← cbcDecrypt P cfg.cipherClass key iv body
  Except.ok (unpad cfg padded)

/-- One lowercase hex digit (`bytes.hex()` output alphabet). -/
def hexDigitChar (n : Nat) : Char :=
  if n < 10 then Char.ofNat (48 + n) else Char.ofNat (87 + n)

/-- `bytes.hex()`: two lowercase hex digits per byte. -/
def bytesToHex (l : Bytes) : List Char :=
  (l.map (fun b => [hexDigitChar (b / 16), hexDigitChar (b % 16)])).flatten

/-- Value of one hex digit (`bytes.fromhex` accepts both cases). -/
def hexVal (c : Char) : Option Nat :=
  if 48 ≤ c.toNat ∧ c.toNat ≤ 57 then Option.some (c.toNat - 48)
  else if 97 ≤ c.toNat ∧ c.toNat ≤ 102 then Option.some (c.toNat - 87)
  else if 65 ≤ c.toNat ∧ c.toNat ≤ 70 then Option.some (c.toNat - 55)
  else Option.none

/-- `bytes.fromhex`: parse pairs of hex digits, raising `ValueError` on
an odd length or a non-hex character.  (The whitespace tolerance of
CPython `fromhex` is outside the model; the module only ever feeds it
its own hex output.) -/
def hexToBytes : List Char → Except PyErr Bytes
  | [] => Except.ok []
  | [_] => Except.error (PyErr.valueError ("non-hexadecimal number found in fromhex() arg"))
  | c1 :: c2 :: rest =>
    match hexVal c1, hexVal c2 with
    | Option.some h, Option.some l => (hexToBytes rest).map (fun bs => (16 * h + l) :: bs)
    | _, _ => Except.error (PyErr.valueError ("non-hexadecimal number found in fromhex() arg"))

/-- Continuation byte of UTF-8 (0x80-0xBF). -/
def isCont (b : Nat) : Bool := 128 ≤ b && b ≤ 191

/-- Validity of a byte string under Python strict `bytes.decode()`
(UTF-8, RFC 3629 table: no overlong forms, no surrogates, max U+10FFFF). -/
def utf8Valid : Bytes → Bool
  | [] => true
  | b :: rest =>
    if b ≤ 127 then utf8Valid rest
    else if 194 ≤ b && b ≤ 223 then
      match rest with
      | c1 :: rest2 => isCont c1 && utf8Valid rest2
      | [] => false
    else if b == 224 then
      match rest with
      | c1 :: c2 :: rest2 => (160 ≤ c1 && c1 ≤ 191) && isCont c2 && utf8Valid rest2
      | _ => false
    else if (225 ≤ b && b ≤ 236) || (238 ≤ b && b ≤ 239) then
      match rest with
      | c1 :: c2 :: rest2 => isCont c1 && isCont c2 && utf8Valid rest2
      | _ => false
    else if b == 237 then
      match rest with
      | c1 :: c2 :: rest2 => (128 ≤ c1 && c1 ≤ 159) && isCont c2 && utf8Valid rest2
      | _ => false
    else if b == 240 then
      match rest with
      | c1 :: c2 :: c3 :: rest2 =>
        (144 ≤ c1 && c1 ≤ 191) && isCont c2 && isCont c3 && utf8Valid rest2
      | _ => false
    else if 241 ≤ b && b ≤ 243 then
      match rest with
      | c1 :: c2 :: c3 :: rest2 => isCont c1 && isCont c2 && isCont c3 && utf8Valid rest2
      | _ => false
    else if b == 244 then
      match rest with
      | c1 :: c2 :: c3 :: rest2 =>
        (128 ≤ c1 && c1 ≤ 143) && isCont c2 && isCont c3 && utf8Valid rest2
      | _ => false
    else false

/-- `encrypt_guardian_token`: build the fixed DES / Salted / Standard
engine and return the hex of the encryption of the UTF-8 bytes of the
token. -/
def encryptGuardianToken (P : Prims) (rand passphrase token : Bytes) :
    Except PyErr (List Char) := do
  let cfg ← init passphrase ("DES") HeaderMode.salt Padding.standard
    Option.none Option.none Option.none Option.none
  let ct ← encrypt P cfg rand token
  Except.ok (bytesToHex ct)

/-- `decrypt_guardian_token`: build the same fixed engine, decode the
hex, decrypt, and UTF-8-decode the plaintext (which raises
`UnicodeDecodeError` on invalid bytes). -/
def decryptGuardianToken (P : Prims) (passphrase : Bytes) (hexToken : List Char) :
    Except PyErr Bytes := do
  let cfg ← init passphrase ("DES") HeaderMode.salt Padding.standard
    Option.none Option.none Option.none Option.none
  let raw ← hexToBytes hexToken
  let pt ← decrypt P cfg raw
  if utf8Valid pt then Except.ok pt
  else Except.error PyErr.unicodeDecodeError

/-- The digest sequence of the OpenSSL EVP_BytesToKey construction as
the specification words it: D_0 is empty, D_i = MD5(D_[i-1] ||
passphrase || salt). -/
def evpD (md5 : Bytes → Bytes) (passphrase salt : Bytes) : Nat → Bytes
  | 0 => []
  | i + 1 => md5 (evpD md5 passphrase salt i ++ passphrase ++ salt)

/-- The accumulated buffer D_1 || D_2 || ... || D_n of the
EVP_BytesToKey construction. -/
def evpAcc (md5 : Bytes → Bytes) (passphrase salt : Bytes) : Nat → Bytes
  | 0 => []
  | n + 1 => evpAcc md5 passphrase salt n ++ evpD md5 passphrase salt (n + 1)

/-- Header length of a successful `encrypt` output: 16 bytes for salt
mode (marker + 8-byte salt), 8 + one block for randomiv mode (marker +
IV), none otherwise. -/
def encHeaderLen (cfg : Config) : Nat :=
  match cfg.headerMode with
  | .salt => 16
  | .randomiv => 8 + cfg.cipherClass.blocksizeOf
  | .none => 0

/-- Number of bytes `decrypt` consumes as header before the ciphertext
body: `ciphertext[16:]` for salt and randomiv modes, the whole input for
header mode none. -/
def decHeaderLen : HeaderMode → Nat
  | .salt => 16
  | .randomiv => 16
  | .none => 0

/-- A concrete instantiation of the library primitives used by the
closed counterexamples and witnesses: a constant 16-byte digest and the
identity block permutation (which satisfies every length and inverse
property the theorems assume of the real DES). -/
def testPrims : Prims :=
  ⟨fun _ => List.replicate 16 0, fun _ b => b, fun _ b => b⟩

/-- Shorthand for a DES configuration with default sizes, as stored by
`__init__` for `cipher='DES'`. -/
def desCfg (passphrase : Bytes) (hm : HeaderMode) (pd : Padding)
    (iv salt : Option Bytes) : Config :=
  ⟨passphrase, hm, pd, 8, 8, iv, salt, CipherName.des⟩

/-! Helper lemmas: lists, padding, the EVP key-derivation loop, CBC. -/

theorem exceptBind_ok {ε α β : Type} (a : α) (f : α → Except ε β) :
    (Except.ok a : Except ε α) >>= f = f a := rfl

theorem exceptBind_error {ε α β : Type} (e : ε) (f : α → Except ε β) :
    (Except.error e : Except ε α) >>= f = Except.error e := rfl

theorem exceptMap_ok {ε α β : Type} (a : α) (f : α → β) :
    (Except.ok a : Except ε α).map f = Except.ok (f a) := rfl

theorem isPrefixOf_append_self (l t : Bytes) : l.isPrefixOf (l ++ t) = true := by
  induction l with
  | nil => simp [List.isPrefixOf]
  | cons a l ih => simp [List.isPrefixOf, ih]

theorem dropWhile_append_of_all {p : Nat → Bool} (l₁ l₂ : Bytes)
    (h : ∀ a ∈ l₁, p a = true) :
    List.dropWhile p (l₁ ++ l₂) = List.dropWhile p l₂ := by
  induction l₁ with
  | nil => rfl
  | cons a l ih =>
    rw [List.cons_append, List.dropWhile_cons, if_pos (h a (by simp))]
    exact ih (fun a ha => h a (by simp [ha]))

theorem rstrip_append_replicate (x : Nat) (d : Bytes) (k : Nat) :
    rstrip x (d ++ List.replicate k x) = rstrip x d := by
  unfold rstrip
  rw [List.reverse_append, List.reverse_replicate, dropWhile_append_of_all]
  intro a ha
  rw [List.mem_replicate] at ha
  simp [ha.2]

theorem rstrip_of_getLast_ne (x : Nat) (d : Bytes) (h : d.getLast? ≠ Option.some x) :
    rstrip x d = d := by
  unfold rstrip
  cases hr : d.reverse with
  | nil =>
    have hd : d = [] := by simpa using congrArg List.reverse hr
    simp [hd]
  | cons a t =>
    have ha : d.getLast? = Option.some a := by
      rw [List.getLast?_eq_head?_reverse, hr]
      rfl
    have hax : (a == x) = false := by
      simp only [beq_eq_false_iff_ne, ne_eq]
      intro hax
      exact h (hax ▸ ha)
    rw [List.dropWhile_cons, hax]
    simp only [Bool.false_eq_true, if_false]
    rw [← hr, List.reverse_reverse]

theorem getLast?_append_replicate (d : Bytes) (k x : Nat) (hk : k ≠ 0) :
    (d ++ List.replicate k x).getLast? = Option.some x := by
  rw [List.getLast?_eq_head?_reverse, List.reverse_append, List.reverse_replicate]
  cases k with
  | zero => exact absurd rfl hk
  | succ k => rfl

theorem length_pad_mod {bs : Nat} (hb : 0 < bs) (n : Nat) :
    (n + (bs - n % bs)) % bs = 0 := by
  have h1 : n % bs < bs := Nat.mod_lt _ hb
  have h2 : bs * (n / bs) + n % bs = n := Nat.div_add_mod n bs
  have h3 : bs * (n / bs + 1) = bs * (n / bs) + bs := by rw [Nat.mul_succ]
  have h4 : n + (bs - n % bs) = bs * (n / bs + 1) := by omega
  rw [h4, Nat.mul_mod_right]

theorem getLastD_eq_getLast? (l : Bytes) (d : Nat) : l.getLastD d = (l.getLast?).getD d := by
  cases l with
  | nil => rfl
  | cons a t => simp [List.getLastD_eq_getLast?]

/-- Characterization of `_unpad_standard` exactly as the specification
words it: read the last byte as n, strip the last n bytes when n is in
[1, blocksize] and they all equal n, otherwise return the input
unchanged. -/
theorem unpadStandard_eq (bs : Nat) (data : Bytes) :
    unpadStandard bs data =
      if 1 ≤ data.getLastD 0 ∧ data.getLastD 0 ≤ bs ∧
          (pyTakeLast data (data.getLastD 0)).all (fun b => b == data.getLastD 0) = true
      then pyDropLast data (data.getLastD 0)
      else data := by
  cases hd : data.getLast? with
  | none =>
    have hnil : data = [] := List.getLast?_eq_none_iff.mp hd
    subst hnil
    rfl
  | some p =>
    have hgd : data.getLastD 0 = p := by rw [getLastD_eq_getLast?, hd]; rfl
    unfold unpadStandard
    rw [hd, hgd]
    dsimp only
    by_cases hbs : p > bs
    · have hc : (decide (p > bs) || (p == 0)) = true := by
        rw [decide_eq_true hbs, Bool.true_or]
      rw [if_pos hc, if_neg (by omega)]
    · by_cases hz : p = 0
      · subst hz
        have hc : (decide (0 > bs) || ((0 : Nat) == 0)) = true := by simp
        rw [if_pos hc, if_neg (by omega)]
      · have hc : (decide (p > bs) || (p == 0)) = false := by
          simp only [Bool.or_eq_false_iff, decide_eq_false_iff_not, beq_eq_false_iff_ne, ne_eq]
          exact ⟨hbs, hz⟩
        rw [if_neg (by rw [hc]; exact Bool.false_ne_true)]
        by_cases h2 : (pyTakeLast data p).all (fun b => b == p) = true
        · rw [if_pos h2, if_pos ⟨by omega, by omega, h2⟩]
        · rw [if_neg h2, if_neg (by intro hc2; exact h2 hc2.2.2)]

theorem unpadStandard_padStandard {bs : Nat} (hb : 0 < bs) (d : Bytes) :
    unpadStandard bs (padStandard bs d) = d := by
  have hr : d.length % bs < bs := Nat.mod_lt _ hb
  unfold padStandard
  set n := bs - d.length % bs with hn
  have hn1 : 1 ≤ n := by omega
  have hlast : (d ++ List.replicate n n).getLast? = Option.some n :=
    getLast?_append_replicate d n n (by omega)
  have hlastD : (d ++ List.replicate n n).getLastD 0 = n := by
    rw [getLastD_eq_getLast?, hlast]; rfl
  have hlen : (d ++ List.replicate n n).length = d.length + n := by simp
  have htake : pyTakeLast (d ++ List.replicate n n) n = List.replicate n n := by
    unfold pyTakeLast
    rw [hlen, Nat.add_sub_cancel, ← List.length_replicate n n]
    · exact List.drop_left d _
  have hall : (List.replicate n n).all (fun b => b == n) = true := by
    rw [List.all_eq_true]
    intro x hx
    rw [List.mem_replicate] at hx
    simp [hx.2]
  have hdrop : pyDropLast (d ++ List.replicate n n) n = d := by
    unfold pyDropLast
    rw [hlen, Nat.add_sub_cancel, ← List.length_replicate n n, List.take_left]
  rw [unpadStandard_eq, hlastD, if_pos ⟨hn1, by omega, htake ▸ hall⟩, hdrop]

theorem unpadNull_padNull (bs : Nat) (d : Bytes)
    (h : d.getLast? ≠ Option.some 0) : unpadNull (padNull bs d) = d := by
  unfold unpadNull padNull
  rw [rstrip_append_replicate, rstrip_of_getLast_ne _ _ h]

theorem unpadSpace_padSpace (bs : Nat) (d : Bytes)
    (h : d.getLast? ≠ Option.some 32) : unpadSpace (padSpace bs d) = d := by
  unfold unpadSpace padSpace
  rw [rstrip_append_replicate, rstrip_of_getLast_ne _ _ h]

/-! EVP_BytesToKey: the while-loop of `_salted_key_and_iv` computes the
digest sequence D_1, D_2, ... -/

theorem evpAcc_length (md5 : Bytes → Bytes) (pass salt : Bytes)
    (H : ∀ x, (md5 x).length = 16) (n : Nat) :
    (evpAcc md5 pass salt n).length = 16 * n := by
  induction n with
  | zero => rfl
  | succ n ih =>
    show (evpAcc md5 pass salt n ++ evpD md5 pass salt (n + 1)).length = 16 * (n + 1)
    rw [List.length_append, ih]
    show 16 * n + (md5 (evpD md5 pass salt n ++ pass ++ salt)).length = 16 * (n + 1)
    rw [H]
    omega

theorem evpAcc_add_eq_append (md5 : Bytes → Bytes) (pass salt : Bytes) (n k : Nat) :
    ∃ t, evpAcc md5 pass salt (n + k) = evpAcc md5 pass salt n ++ t := by
  induction k with
  | zero => exact ⟨[], by simp⟩
  | succ k ih =>
    obtain ⟨t, ht⟩ := ih
    exact ⟨t ++ evpD md5 pass salt (n + k + 1), by
      show evpAcc md5 pass salt (n + k) ++ evpD md5 pass salt (n + k + 1) = _
      rw [ht, List.append_assoc]⟩

theorem saltedLoop_run (md5 : Bytes → Bytes) (pass salt : Bytes) (desired : Nat)
    (H : ∀ x, (md5 x).length = 16) :
    ∀ fuel i, (desired + 15) / 16 ≤ fuel + i →
      saltedLoop md5 pass salt desired fuel (evpD md5 pass salt i) (evpAcc md5 pass salt i) =
        evpAcc md5 pass salt (max i ((desired + 15) / 16)) := by
  intro fuel
  induction fuel with
  | zero =>
    intro i hi
    have hmax : max i ((desired + 15) / 16) = i := Nat.max_eq_left (by omega)
    rw [hmax]
    rfl
  | succ fuel ih =>
    intro i hi
    show (if (evpAcc md5 pass salt i).length < desired then _ else _) = _
    rw [evpAcc_length md5 pass salt H i]
    by_cases hlt : 16 * i < desired
    · rw [if_pos hlt]
      have hD : md5 (evpD md5 pass salt i ++ pass ++ salt) = evpD md5 pass salt (i + 1) := rfl
      have hA : evpAcc md5 pass salt i ++ evpD md5 pass salt (i + 1) =
          evpAcc md5 pass salt (i + 1) := rfl
      rw [hD, hA, ih (i + 1) (by omega)]
      congr 1
      omega
    · rw [if_neg hlt]
      have hmax : max i ((desired + 15) / 16) = i := Nat.max_eq_left (by omega)
      rw [hmax]

theorem saltedKeyAndIv_spec (P : Prims) (ks bs : Nat) (pass salt : Bytes)
    (H : ∀ x, (P.md5 x).length = 16) (hs : salt.length = 8) :
    saltedKeyAndIv P ks bs pass salt =
      Except.ok ((evpAcc P.md5 pass salt ((ks + bs + 15) / 16)).take ks,
        ((evpAcc P.md5 pass salt ((ks + bs + 15) / 16)).drop ks).take bs) := by
  unfold saltedKeyAndIv
  rw [if_neg (by omega)]
  have h0 := saltedLoop_run P.md5 pass salt (ks + bs) H (ks + bs) 0 (by omega)
  have hmax : max 0 ((ks + bs + 15) / 16) = (ks + bs + 15) / 16 := Nat.max_eq_right (Nat.zero_le _)
  rw [hmax] at h0
  have hD0 : evpD P.md5 pass salt 0 = [] := rfl
  have hA0 : evpAcc P.md5 pass salt 0 = [] := rfl
  rw [hD0, hA0] at h0
  simp only [h0]

theorem evpAcc_take_agree (md5 : Bytes → Bytes) (pass salt : Bytes)
    (H : ∀ x, (md5 x).length = 16) {m n k : Nat} (hmn : m ≤ n) (hk : k ≤ 16 * m) :
    (evpAcc md5 pass salt n).take k = (evpAcc md5 pass salt m).take k := by
  obtain ⟨t, ht⟩ := evpAcc_add_eq_append md5 pass salt m (n - m)
  have hn : evpAcc md5 pass salt n = evpAcc md5 pass salt m ++ t := by
    rw [← ht]
    congr 1
    omega
  rw [hn, List.take_append_of_le_length (by rw [evpAcc_length md5 pass salt H]; omega)]

theorem evpAcc_drop_take_agree (md5 : Bytes → Bytes) (pass salt : Bytes)
    (H : ∀ x, (md5 x).length = 16) {m n j k : Nat} (hmn : m ≤ n) (hk : j + k ≤ 16 * m) :
    ((evpAcc md5 pass salt n).drop j).take k = ((evpAcc md5 pass salt m).drop j).take k := by
  obtain ⟨t, ht⟩ := evpAcc_add_eq_append md5 pass salt m (n - m)
  have hn : evpAcc md5 pass salt n = evpAcc md5 pass salt m ++ t := by
    rw [← ht]
    congr 1
    omega
  have hm : (evpAcc md5 pass salt m).length = 16 * m := evpAcc_length md5 pass salt H m
  rw [hn, List.drop_append_of_le_length (by omega),
    List.take_append_of_le_length (by rw [List.length_drop]; omega)]

theorem saltedKeyAndIv_lengths (P : Prims) (ks bs : Nat) (pass salt : Bytes)
    (H : ∀ x, (P.md5 x).length = 16) (hs : salt.length = 8) :
    ∃ key iv, saltedKeyAndIv P ks bs pass salt = Except.ok (key, iv) ∧
      key.length = ks ∧ iv.length = bs := by
  rw [saltedKeyAndIv_spec P ks bs pass salt H hs]
  refine ⟨_, _, rfl, ?_, ?_⟩
  · rw [List.length_take, evpAcc_length P.md5 pass salt H]
    have : 16 * ((ks + bs + 15) / 16) ≥ ks + bs := by omega
    omega
  · rw [List.length_take, List.length_drop, evpAcc_length P.md5 pass salt H]
    have : 16 * ((ks + bs + 15) / 16) ≥ ks + bs := by omega
    omega

/-! CBC chaining lemmas. -/

theorem xorBytes_length (a b : Bytes) : (xorBytes a b).length = min a.length b.length := by
  simp [xorBytes]

theorem xorBytes_xorBytes_cancel (a : Bytes) :
    ∀ b : Bytes, a.length = b.length → xorBytes a (xorBytes a b) = b := by
  induction a with
  | nil =>
    intro b h
    have : b = [] := List.eq_nil_of_length_eq_zero (by simpa using h.symm)
    subst this
    rfl
  | cons x xs ih =>
    intro b h
    cases b with
    | nil => simp at h
    | cons y ys =>
      show (x ^^^ (x ^^^ y)) :: xorBytes xs (xorBytes xs ys) = y :: ys
      rw [← Nat.xor_assoc, Nat.xor_self, Nat.zero_xor,
        ih ys (by simpa using h)]

theorem xorBytes_lt (a : Bytes) :
    ∀ b : Bytes, (∀ x ∈ a, x < 256) → (∀ x ∈ b, x < 256) →
      ∀ x ∈ xorBytes a b, x < 256 := by
  induction a with
  | nil => intro b _ _ x hx; simp [xorBytes] at hx
  | cons c cs ih =>
    intro b ha hb x hx
    cases b with
    | nil => simp [xorBytes] at hx
    | cons d ds =>
      rw [show xorBytes (c :: cs) (d :: ds) = (c ^^^ d) :: xorBytes cs ds from rfl] at hx
      rcases List.mem_cons.mp hx with hx | hx
      · subst hx
        have h1 : c < 2 ^ 8 := ha c (by simp)
        have h2 : d < 2 ^ 8 := hb d (by simp)
        exact Nat.xor_lt_two_pow h1 h2
      · exact ih ds (fun y hy => ha y (by simp [hy])) (fun y hy => hb y (by simp [hy])) x hx

theorem cbcDecAux_nil (P : Prims) (key : Bytes) (bsz : Nat) :
    ∀ f2 prev, cbcDecAux P key bsz f2 prev [] = [] := by
  intro f2 prev
  cases f2 with
  | zero => rfl
  | succ f2 => simp [cbcDecAux]

theorem cbcEncAux_length (P : Prims) (key : Bytes) {bsz : Nat} (hb : 0 < bsz)
    (HencLen : ∀ k b, b.length = bsz → (P.blockEnc k b).length = bsz) :
    ∀ fuel prev data, data.length ≤ fuel → prev.length = bsz → bsz ∣ data.length →
      (cbcEncAux P key bsz fuel prev data).length = data.length := by
  intro fuel
  induction fuel with
  | zero =>
    intro prev data hle _ _
    have : data = [] := List.eq_nil_of_length_eq_zero (by omega)
    subst this
    rfl
  | succ fuel ih =>
    intro prev data hle hprev hdvd
    by_cases hnil : data = []
    · subst hnil
      simp [cbcEncAux]
    · have hpos : 0 < data.length := List.length_pos.mpr hnil
      have hdlen : bsz ≤ data.length := Nat.le_of_dvd hpos hdvd
      have htk : (data.take bsz).length = bsz := by
        rw [List.length_take]
        omega
      have hxor : (xorBytes prev (data.take bsz)).length = bsz := by
        rw [xorBytes_length, hprev, htk]
        omega
      have hc : (P.blockEnc key (xorBytes prev (data.take bsz))).length = bsz :=
        HencLen _ _ hxor
      show (if data = [] then [] else _).length = data.length
      rw [if_neg hnil, List.length_append, hc,
        ih _ _ (by rw [List.length_drop]; omega) hc
          (by rw [List.length_drop]; exact Nat.dvd_sub' hdvd (dvd_refl bsz)),
        List.length_drop]
      omega

theorem cbcDecAux_cbcEncAux (P : Prims) (key : Bytes) {bsz : Nat} (hb : 0 < bsz)
    (HencLen : ∀ k b, b.length = bsz → (P.blockEnc k b).length = bsz)
    (Hdec : ∀ k b, b.length = bsz → P.blockDec k (P.blockEnc k b) = b) :
    ∀ fuel f2 prev data, data.length ≤ fuel → data.length ≤ f2 →
      prev.length = bsz → bsz ∣ data.length →
      cbcDecAux P key bsz f2 prev (cbcEncAux P key bsz fuel prev data) = data := by
  intro fuel
  induction fuel with
  | zero =>
    intro f2 prev data h1 _ _ _
    have : data = [] := List.eq_nil_of_length_eq_zero (by omega)
    subst this
    show cbcDecAux P key bsz f2 prev (cbcEncAux P key bsz 0 prev []) = []
    exact cbcDecAux_nil P key bsz f2 prev
  | succ fuel ih =>
    intro f2 prev data h1 h2 hprev hdvd
    by_cases hnil : data = []
    · subst hnil
      show cbcDecAux P key bsz f2 prev (if ([] : Bytes) = [] then [] else _) = []
      rw [if_pos rfl]
      exact cbcDecAux_nil P key bsz f2 prev
    · have hpos : 0 < data.length := List.length_pos.mpr hnil
      have hdlen : bsz ≤ data.length := Nat.le_of_dvd hpos hdvd
      obtain ⟨f2p, rfl⟩ : ∃ f2p, f2 = f2p + 1 := ⟨f2 - 1, by omega⟩
      have htk : (data.take bsz).length = bsz := by
        rw [List.length_take]
        omega
      have hxor : (xorBytes prev (data.take bsz)).length = bsz := by
        rw [xorBytes_length, hprev, htk]
        omega
      have hclen : (P.blockEnc key (xorBytes prev (data.take bsz))).length = bsz :=
        HencLen _ _ hxor
      have henc : cbcEncAux P key bsz (fuel + 1) prev data =
          P.blockEnc key (xorBytes prev (data.take bsz)) ++
            cbcEncAux P key bsz fuel (P.blockEnc key (xorBytes prev (data.take bsz)))
              (data.drop bsz) := by
        show (if data = [] then [] else _) = _
        rw [if_neg hnil]
      rw [henc]
      have hne : P.blockEnc key (xorBytes prev (data.take bsz)) ++
          cbcEncAux P key bsz fuel (P.blockEnc key (xorBytes prev (data.take bsz)))
            (data.drop bsz) ≠ [] := by
        intro hc
        have := congrArg List.length hc
        rw [List.length_append, hclen] at this
        simp at this
        omega
      show (if _ = [] then [] else _) = data
      rw [if_neg hne]
      have htl : (P.blockEnc key (xorBytes prev (data.take bsz)) ++
          cbcEncAux P key bsz fuel (P.blockEnc key (xorBytes prev (data.take bsz)))
            (data.drop bsz)).take bsz = P.blockEnc key (xorBytes prev (data.take bsz)) :=
        List.take_left' hclen
      have hdl : (P.blockEnc key (xorBytes prev (data.take bsz)) ++
          cbcEncAux P key bsz fuel (P.blockEnc key (xorBytes prev (data.take bsz)))
            (data.drop bsz)).drop bsz =
          cbcEncAux P key bsz fuel (P.blockEnc key (xorBytes prev (data.take bsz)))
            (data.drop bsz) :=
        List.drop_left' hclen
      rw [htl, hdl, Hdec _ _ hxor,
        xorBytes_xorBytes_cancel prev (data.take bsz) (by rw [hprev, htk]),
        ih f2p _ (data.drop bsz) (by rw [List.length_drop]; omega)
          (by rw [List.length_drop]; omega) hclen
          (by rw [List.length_drop]; exact Nat.dvd_sub' hdvd (dvd_refl bsz)),
        List.take_append_drop]

theorem cbcEncAux_lt (P : Prims) (key : Bytes) {bsz : Nat} (_hb : 0 < bsz)
    (HencLen : ∀ k b, b.length = bsz → (P.blockEnc k b).length = bsz)
    (Henc256 : ∀ k b, b.length = bsz → (∀ x ∈ b, x < 256) →
      ∀ x ∈ P.blockEnc k b, x < 256) :
    ∀ fuel prev data, prev.length = bsz → (∀ x ∈ prev, x < 256) →
      (∀ x ∈ data, x < 256) → bsz ∣ data.length →
      ∀ x ∈ cbcEncAux P key bsz fuel prev data, x < 256 := by
  intro fuel
  induction fuel with
  | zero => intro prev data _ _ _ _ x hx; simp [cbcEncAux] at hx
  | succ fuel ih =>
    intro prev data hprev hp256 hd256 hdvd x hx
    by_cases hnil : data = []
    · subst hnil
      simp [cbcEncAux] at hx
    · have hpos : 0 < data.length := List.length_pos.mpr hnil
      have hdlen : bsz ≤ data.length := Nat.le_of_dvd hpos hdvd
      have htk : (data.take bsz).length = bsz := by
        rw [List.length_take]
        omega
      have hxor : (xorBytes prev (data.take bsz)).length = bsz := by
        rw [xorBytes_length, hprev, htk]
        omega
      have hx256 : ∀ y ∈ xorBytes prev (data.take bsz), y < 256 :=
        xorBytes_lt prev (data.take bsz) hp256
          (fun y hy => hd256 y (List.mem_of_mem_take hy))
      have hc256 : ∀ y ∈ P.blockEnc key (xorBytes prev (data.take bsz)), y < 256 :=
        Henc256 _ _ hxor hx256
      have hclen : (P.blockEnc key (xorBytes prev (data.take bsz))).length = bsz :=
        HencLen _ _ hxor
      have hstep : cbcEncAux P key bsz (fuel + 1) prev data =
          P.blockEnc key (xorBytes prev (data.take bsz)) ++
            cbcEncAux P key bsz fuel (P.blockEnc key (xorBytes prev (data.take bsz)))
              (data.drop bsz) := by
        show (if data = [] then [] else _) = _
        rw [if_neg hnil]
      rw [hstep] at hx
      rcases List.mem_append.mp hx with hx | hx
      · exact hc256 x hx
      · exact ih _ _ hclen hc256 (fun y hy => hd256 y (List.mem_of_mem_drop hy))
          (by rw [List.length_drop]; exact Nat.dvd_sub' hdvd (dvd_refl bsz)) x hx

theorem cbcEncrypt_ok (P : Prims) (cc : CipherName) (key iv data : Bytes)
    (hiv : iv.length = cc.blocksizeOf) (hdvd : cc.blocksizeOf ∣ data.length) :
    cbcEncrypt P cc key iv data =
      Except.ok (cbcEncAux P key cc.blocksizeOf data.length iv data) := by
  have hmod : data.length % cc.blocksizeOf = 0 := Nat.mod_eq_zero_of_dvd hdvd
  unfold cbcEncrypt
  rw [if_neg (by omega), if_neg (by omega)]

theorem cbc_roundtrip (P : Prims) (cc : CipherName) (key iv data : Bytes)
    (HencLen : ∀ k b, b.length = cc.blocksizeOf → (P.blockEnc k b).length = cc.blocksizeOf)
    (Hdec : ∀ k b, b.length = cc.blocksizeOf → P.blockDec k (P.blockEnc k b) = b)
    (hiv : iv.length = cc.blocksizeOf) (hdvd : cc.blocksizeOf ∣ data.length) :
    cbcEncrypt P cc key iv data =
        Except.ok (cbcEncAux P key cc.blocksizeOf data.length iv data) ∧
      cbcDecrypt P cc key iv (cbcEncAux P key cc.blocksizeOf data.length iv data) =
        Except.ok data := by
  have hb : 0 < cc.blocksizeOf := by cases cc <;> simp [CipherName.blocksizeOf]
  have hmod : data.length % cc.blocksizeOf = 0 := Nat.mod_eq_zero_of_dvd hdvd
  have hctlen : (cbcEncAux P key cc.blocksizeOf data.length iv data).length = data.length :=
    cbcEncAux_length P key hb HencLen data.length iv data (le_refl _) hiv hdvd
  constructor
  · unfold cbcEncrypt
    rw [if_neg (by omega), if_neg (by omega)]
  · unfold cbcDecrypt
    rw [if_neg (by omega), if_neg (by rw [hctlen]; omega), hctlen,
      cbcDecAux_cbcEncAux P key hb HencLen Hdec data.length data.length iv data
        (le_refl _) (le_refl _) hiv hdvd]

/-! Padding dispatch and per-header-mode equations of encrypt/decrypt. -/

theorem dvd_length_padStandard {bs : Nat} (hb : 0 < bs) (p : Bytes) :
    bs ∣ (padStandard bs p).length := by
  apply Nat.dvd_of_mod_eq_zero
  show (p ++ List.replicate (bs - p.length % bs) (bs - p.length % bs)).length % bs = 0
  rw [List.length_append, List.length_replicate]
  exact length_pad_mod hb p.length

theorem dvd_length_padNull {bs : Nat} (hb : 0 < bs) (p : Bytes) :
    bs ∣ (padNull bs p).length := by
  apply Nat.dvd_of_mod_eq_zero
  show (p ++ List.replicate (bs - p.length % bs) 0).length % bs = 0
  rw [List.length_append, List.length_replicate]
  exact length_pad_mod hb p.length

theorem dvd_length_padSpace {bs : Nat} (hb : 0 < bs) (p : Bytes) :
    bs ∣ (padSpace bs p).length := by
  apply Nat.dvd_of_mod_eq_zero
  show (p ++ List.replicate (bs - p.length % bs) 32).length % bs = 0
  rw [List.length_append, List.length_replicate]
  exact length_pad_mod hb p.length

/-- For the three tolerant paddings (with the trailing-byte side condition
for null and space), `_pad` succeeds, the result is block-aligned, and
`_unpad` restores the plaintext. -/
theorem pad_unpad (cfg : Config) (hb : 0 < cfg.blocksize) (p : Bytes)
    (hpad : cfg.padding = Padding.standard ∨
      (cfg.padding = Padding.null ∧ p.getLast? ≠ Option.some 0) ∨
      (cfg.padding = Padding.space ∧ p.getLast? ≠ Option.some 32)) :
    ∃ padded, pad cfg p = Except.ok padded ∧ cfg.blocksize ∣ padded.length ∧
      unpad cfg padded = p := by
  rcases hpad with h | ⟨h, hl⟩ | ⟨h, hl⟩
  · refine ⟨padStandard cfg.blocksize p, by simp [pad, h], dvd_length_padStandard hb p, ?_⟩
    rw [unpad, h]
    exact unpadStandard_padStandard hb p
  · refine ⟨padNull cfg.blocksize p, by simp [pad, h], dvd_length_padNull hb p, ?_⟩
    rw [unpad, h]
    exact unpadNull_padNull cfg.blocksize p hl
  · refine ⟨padSpace cfg.blocksize p, by simp [pad, h], dvd_length_padSpace hb p, ?_⟩
    rw [unpad, h]
    exact unpadSpace_padSpace cfg.blocksize p hl

theorem encrypt_salt_eq (P : Prims) (cfg : Config) (rand p : Bytes)
    (hm : cfg.headerMode = HeaderMode.salt)
    {key iv : Bytes}
    (hkdf : saltedKeyAndIv P cfg.keysize cfg.blocksize cfg.passphrase
      (pyOrBytes cfg.salt rand) = Except.ok (key, iv))
    {padded : Bytes} (hpadded : pad cfg p = Except.ok padded)
    {ct : Bytes} (hct : cbcEncrypt P cfg.cipherClass key iv padded = Except.ok ct) :
    encrypt P cfg rand p = Except.ok ((saltedMarker ++ pyOrBytes cfg.salt rand) ++ ct) := by
  unfold encrypt
  rw [hm]
  simp [hkdf, hpadded, hct, exceptBind_ok]

theorem decrypt_salt_eq (P : Prims) (cfg : Config) (s ct : Bytes)
    (hm : cfg.headerMode = HeaderMode.salt) (hs : s.length = 8)
    {key iv : Bytes}
    (hkdf : saltedKeyAndIv P cfg.keysize cfg.blocksize cfg.passphrase s =
      Except.ok (key, iv))
    {padded : Bytes} (hdec : cbcDecrypt P cfg.cipherClass key iv ct = Except.ok padded) :
    decrypt P cfg ((saltedMarker ++ s) ++ ct) = Except.ok (unpad cfg padded) := by
  have hpre : saltedMarker.isPrefixOf (saltedMarker ++ (s ++ ct)) = true :=
    isPrefixOf_append_self _ _
  have hsalt : ((saltedMarker ++ (s ++ ct)).drop 8).take 8 = s := by
    rw [List.drop_left' (by decide), List.take_left' hs]
  have hbody : (saltedMarker ++ (s ++ ct)).drop 16 = ct := by
    rw [show (16 : Nat) = 8 + 8 from rfl, ← List.drop_drop,
      List.drop_left' (by decide), List.drop_left' hs]
  unfold decrypt
  rw [hm]
  simp [hpre, hsalt, hbody, hkdf, hdec, exceptBind_ok]

theorem encrypt_randomiv_eq (P : Prims) (cfg : Config) (rand p : Bytes)
    (hm : cfg.headerMode = HeaderMode.randomiv) (hbs : cfg.blocksize = 8)
    {padded : Bytes} (hpadded : pad cfg p = Except.ok padded)
    {ct : Bytes}
    (hct : cbcEncrypt P cfg.cipherClass (keyFromPassphrase P cfg.keysize cfg.passphrase)
      (pyOrBytes cfg.iv rand) padded = Except.ok ct) :
    encrypt P cfg rand p = Except.ok ((randomivMarker ++ pyOrBytes cfg.iv rand) ++ ct) := by
  unfold encrypt
  rw [hm]
  simp [hbs, hpadded, hct, exceptBind_ok]

theorem decrypt_randomiv_eq (P : Prims) (cfg : Config) (i ct : Bytes)
    (hm : cfg.headerMode = HeaderMode.randomiv) (hi : i.length = 8)
    {padded : Bytes}
    (hdec : cbcDecrypt P cfg.cipherClass (keyFromPassphrase P cfg.keysize cfg.passphrase)
      i ct = Except.ok padded) :
    decrypt P cfg ((randomivMarker ++ i) ++ ct) = Except.ok (unpad cfg padded) := by
  have hpre : randomivMarker.isPrefixOf (randomivMarker ++ (i ++ ct)) = true :=
    isPrefixOf_append_self _ _
  have hiv : ((randomivMarker ++ (i ++ ct)).drop 8).take 8 = i := by
    rw [List.drop_left' (by decide), List.take_left' hi]
  have hbody : (randomivMarker ++ (i ++ ct)).drop 16 = ct := by
    rw [show (16 : Nat) = 8 + 8 from rfl, ← List.drop_drop,
      List.drop_left' (by decide), List.drop_left' hi]
  unfold decrypt
  rw [hm]
  simp [hpre, hiv, hbody, hdec, exceptBind_ok]

theorem encrypt_none_eq (P : Prims) (cfg : Config) (rand p : Bytes)
    (hm : cfg.headerMode = HeaderMode.none) (htr : truthy cfg.iv = true)
    {padded : Bytes} (hpadded : pad cfg p = Except.ok padded)
    {ct : Bytes}
    (hct : cbcEncrypt P cfg.cipherClass (keyFromPassphrase P cfg.keysize cfg.passphrase)
      (cfg.iv.getD []) padded = Except.ok ct) :
    encrypt P cfg rand p = Except.ok ct := by
  unfold encrypt
  rw [hm]
  simp [htr, hpadded, hct, exceptBind_ok]

theorem decrypt_none_eq (P : Prims) (cfg : Config) (ct : Bytes)
    (hm : cfg.headerMode = HeaderMode.none) (htr : truthy cfg.iv = true)
    {padded : Bytes}
    (hdec : cbcDecrypt P cfg.cipherClass (keyFromPassphrase P cfg.keysize cfg.passphrase)
      (cfg.iv.getD []) ct = Except.ok padded) :
    decrypt P cfg ct = Except.ok (unpad cfg padded) := by
  unfold decrypt
  rw [hm]
  simp [htr, hdec, exceptBind_ok]

/-- Round-trip of encrypt then decrypt for a DES configuration with the
default 8-byte block, any header mode (with well-formed salt/IV for the
mode), and any tolerant padding choice. -/
theorem encrypt_decrypt_roundtrip (P : Prims) (cfg : Config) (rand p : Bytes)
    (hcc : cfg.cipherClass = CipherName.des) (hbs : cfg.blocksize = 8)
    (Hm16 : ∀ x, (P.md5 x).length = 16)
    (HencLen : ∀ k b, b.length = 8 → (P.blockEnc k b).length = 8)
    (Hdec : ∀ k b, b.length = 8 → P.blockDec k (P.blockEnc k b) = b)
    (hsalt : cfg.headerMode = HeaderMode.salt → (pyOrBytes cfg.salt rand).length = 8)
    (hiv : cfg.headerMode = HeaderMode.randomiv → (pyOrBytes cfg.iv rand).length = 8)
    (hivn : cfg.headerMode = HeaderMode.none →
      truthy cfg.iv = true ∧ (cfg.iv.getD []).length = 8)
    (hpad : cfg.padding = Padding.standard ∨
      (cfg.padding = Padding.null ∧ p.getLast? ≠ Option.some 0) ∨
      (cfg.padding = Padding.space ∧ p.getLast? ≠ Option.some 32)) :
    (encrypt P cfg rand p) >>= decrypt P cfg = Except.ok p := by
  have hb8 : (0 : Nat) < cfg.blocksize := by omega
  have hB : cfg.cipherClass.blocksizeOf = 8 := by rw [hcc]; rfl
  obtain ⟨padded, hpadded, hdvd, hunpad⟩ := pad_unpad cfg hb8 p hpad
  have hdvdB : cfg.cipherClass.blocksizeOf ∣ padded.length := by
    rw [hB, ← hbs]
    exact hdvd
  have HencLenB : ∀ k b, b.length = cfg.cipherClass.blocksizeOf →
      (P.blockEnc k b).length = cfg.cipherClass.blocksizeOf := by
    rw [hB]
    exact HencLen
  have HdecB : ∀ k b, b.length = cfg.cipherClass.blocksizeOf →
      P.blockDec k (P.blockEnc k b) = b := by
    rw [hB]
    exact Hdec
  cases hm : cfg.headerMode with
  | salt =>
    obtain ⟨key, iv, hkdf, hklen, hilen⟩ := saltedKeyAndIv_lengths P cfg.keysize
      cfg.blocksize cfg.passphrase (pyOrBytes cfg.salt rand) Hm16 (hsalt hm)
    have hivB : iv.length = cfg.cipherClass.blocksizeOf := by rw [hB, hilen, hbs]
    obtain ⟨henc, hdecct⟩ := cbc_roundtrip P cfg.cipherClass key iv padded
      HencLenB HdecB hivB hdvdB
    rw [encrypt_salt_eq P cfg rand p hm hkdf hpadded henc, exceptBind_ok,
      decrypt_salt_eq P cfg (pyOrBytes cfg.salt rand) _ hm (hsalt hm) hkdf hdecct,
      hunpad]
  | randomiv =>
    have hivB : (pyOrBytes cfg.iv rand).length = cfg.cipherClass.blocksizeOf := by
      rw [hB]
      exact hiv hm
    obtain ⟨henc, hdecct⟩ := cbc_roundtrip P cfg.cipherClass
      (keyFromPassphrase P cfg.keysize cfg.passphrase) (pyOrBytes cfg.iv rand) padded
      HencLenB HdecB hivB hdvdB
    rw [encrypt_randomiv_eq P cfg rand p hm hbs hpadded henc, exceptBind_ok,
      decrypt_randomiv_eq P cfg (pyOrBytes cfg.iv rand) _ hm (hiv hm) hdecct, hunpad]
  | none =>
    obtain ⟨htr, hlen⟩ := hivn hm
    have hivB : (cfg.iv.getD []).length = cfg.cipherClass.blocksizeOf := by
      rw [hB]
      exact hlen
    obtain ⟨henc, hdecct⟩ := cbc_roundtrip P cfg.cipherClass
      (keyFromPassphrase P cfg.keysize cfg.passphrase) (cfg.iv.getD []) padded
      HencLenB HdecB hivB hdvdB
    rw [encrypt_none_eq P cfg rand p hm htr hpadded henc, exceptBind_ok,
      decrypt_none_eq P cfg _ hm htr hdecct, hunpad]

/-! Hex encoding and byte-range lemmas for the guardian token helpers. -/

theorem hexVal_hexDigitChar : ∀ d : Nat, d < 16 → hexVal (hexDigitChar d) = Option.some d := by
  decide

theorem length_bytesToHex (l : Bytes) : (bytesToHex l).length = 2 * l.length := by
  induction l with
  | nil => rfl
  | cons b t ih =>
    have hcons : bytesToHex (b :: t) =
        hexDigitChar (b / 16) :: hexDigitChar (b % 16) :: bytesToHex t := by
      simp [bytesToHex]
    rw [hcons]
    simp only [List.length_cons, ih]
    omega

theorem hexToBytes_bytesToHex (l : Bytes) (h : ∀ b ∈ l, b < 256) :
    hexToBytes (bytesToHex l) = Except.ok l := by
  induction l with
  | nil => rfl
  | cons b t ih =>
    have hb : b < 256 := h b (by simp)
    have hcons : bytesToHex (b :: t) =
        hexDigitChar (b / 16) :: hexDigitChar (b % 16) :: bytesToHex t := by
      simp [bytesToHex]
    rw [hcons, hexToBytes, hexVal_hexDigitChar (b / 16) (by omega),
      hexVal_hexDigitChar (b % 16) (by omega),
      ih (fun x hx => h x (by simp [hx]))]
    have hdm : 16 * (b / 16) + b % 16 = b := Nat.div_add_mod b 16
    simp [Except.map, hdm]

theorem evpAcc_lt (md5 : Bytes → Bytes) (pass salt : Bytes)
    (Hm256 : ∀ x, ∀ b ∈ md5 x, b < 256) (n : Nat) :
    ∀ b ∈ evpAcc md5 pass salt n, b < 256 := by
  induction n with
  | zero => intro b hb; simp [evpAcc] at hb
  | succ n ih =>
    intro b hb
    rw [show evpAcc md5 pass salt (n + 1) =
      evpAcc md5 pass salt n ++ evpD md5 pass salt (n + 1) from rfl] at hb
    rcases List.mem_append.mp hb with hb | hb
    · exact ih b hb
    · exact Hm256 _ b hb

theorem saltedMarker_lt : ∀ x ∈ saltedMarker, x < 256 := by decide

theorem init_guardian (pass : Bytes) :
    init pass ("DES") HeaderMode.salt Padding.standard Option.none Option.none
      Option.none Option.none =
      Except.ok (desCfg pass HeaderMode.salt Padding.standard Option.none Option.none) := rfl

/-- The pieces of a successful guardian-token encryption: the EVP-derived
key and IV, the CBC ciphertext, and the shape of the output blob. -/
theorem guardian_parts (P : Prims) (pass rand s : Bytes)
    (Hm16 : ∀ x, (P.md5 x).length = 16)
    (HencLen : ∀ k b, b.length = 8 → (P.blockEnc k b).length = 8)
    (hrand : rand.length = 8) :
    ∃ key iv ct,
      saltedKeyAndIv P 8 8 pass rand = Except.ok (key, iv) ∧
      key.length = 8 ∧ iv.length = 8 ∧
      iv = ((evpAcc P.md5 pass rand 1).drop 8).take 8 ∧
      cbcEncrypt P CipherName.des key iv (padStandard 8 s) = Except.ok ct ∧
      ct = cbcEncAux P key 8 (padStandard 8 s).length iv (padStandard 8 s) ∧
      ct.length = (padStandard 8 s).length ∧
      encrypt P (desCfg pass HeaderMode.salt Padding.standard Option.none Option.none)
        rand s = Except.ok ((saltedMarker ++ rand) ++ ct) := by
  have hspec := saltedKeyAndIv_spec P 8 8 pass rand Hm16 hrand
  have hone : ((8 + 8 + 15) / 16 : Nat) = 1 := by norm_num
  rw [hone] at hspec
  set key := (evpAcc P.md5 pass rand 1).take 8 with hkey
  set iv := ((evpAcc P.md5 pass rand 1).drop 8).take 8 with hiv
  have hacc : (evpAcc P.md5 pass rand 1).length = 16 := by
    rw [evpAcc_length P.md5 pass rand Hm16 1]
  have hklen : key.length = 8 := by
    rw [hkey, List.length_take]
    omega
  have hilen : iv.length = 8 := by
    rw [hiv, List.length_take, List.length_drop]
    omega
  have hdvd : (8 : Nat) ∣ (padStandard 8 s).length := dvd_length_padStandard (by norm_num) s
  have hivB : iv.length = CipherName.des.blocksizeOf := hilen
  have henc : cbcEncrypt P CipherName.des key iv (padStandard 8 s) =
      Except.ok (cbcEncAux P key 8 (padStandard 8 s).length iv (padStandard 8 s)) :=
    cbcEncrypt_ok P CipherName.des key iv (padStandard 8 s) hivB hdvd
  have hctlen : (cbcEncAux P key 8 (padStandard 8 s).length iv (padStandard 8 s)).length =
      (padStandard 8 s).length :=
    cbcEncAux_length P key (by norm_num) HencLen _ iv (padStandard 8 s) (le_refl _) hilen hdvd
  have hencall : encrypt P (desCfg pass HeaderMode.salt Padding.standard Option.none
      Option.none) rand s = Except.ok ((saltedMarker ++ rand) ++
        cbcEncAux P key 8 (padStandard 8 s).length iv (padStandard 8 s)) :=
    encrypt_salt_eq P (desCfg pass HeaderMode.salt Padding.standard Option.none Option.none)
      rand s rfl hspec rfl henc
  exact ⟨key, iv, _, hspec, hklen, hilen, hiv, henc, rfl, hctlen, hencall⟩

/-! Inversion lemmas for successful operations (used for the length
invariants). -/

theorem saltedKeyAndIv_ok_salt_len (P : Prims) (ks bs : Nat) (pass salt : Bytes)
    {x : Bytes × Bytes} (h : saltedKeyAndIv P ks bs pass salt = Except.ok x) :
    salt.length = 8 := by
  by_cases hs : salt.length = 8
  · exact hs
  · unfold saltedKeyAndIv at h
    rw [if_pos hs] at h
    cases h

theorem cbcEncrypt_ok_inv (P : Prims) (cc : CipherName) (key iv data : Bytes)
    {ct : Bytes} (h : cbcEncrypt P cc key iv data = Except.ok ct) :
    iv.length = cc.blocksizeOf ∧ data.length % cc.blocksizeOf = 0 ∧
      ct = cbcEncAux P key cc.blocksizeOf data.length iv data := by
  unfold cbcEncrypt at h
  by_cases h1 : iv.length = cc.blocksizeOf
  · by_cases h2 : data.length % cc.blocksizeOf = 0
    · rw [if_neg (by omega), if_neg (by omega)] at h
      exact ⟨h1, h2, (Except.ok.injEq _ _).mp h.symm⟩
    · rw [if_neg (by omega), if_pos h2] at h
      cases h
  · rw [if_pos h1] at h
    cases h

theorem cbcDecrypt_not_aligned (P : Prims) (cc : CipherName) (key iv data : Bytes)
    (h : data.length % cc.blocksizeOf ≠ 0) :
    ∃ e, cbcDecrypt P cc key iv data = Except.error e := by
  unfold cbcDecrypt
  by_cases h1 : iv.length = cc.blocksizeOf
  · rw [if_neg (by omega), if_pos h]
    exact ⟨_, rfl⟩
  · rw [if_pos h1]
    exact ⟨_, rfl⟩

/-! Claim theorems. -/

/-- C2: for every passphrase and every 8-byte salt, `_salted_key_and_iv`
computes the OpenSSL EVP_BytesToKey construction: starting from an empty
digest, D_i = MD5(D_[i-1] || passphrase || salt) are concatenated until
the buffer holds at least keysize + blocksize bytes, and the first
keysize bytes are returned as the key, the next blocksize bytes as the
IV.  Stated against the digest sequence `evpD`/`evpAcc` written from the
specification, for every digest budget n whose accumulated buffer is
long enough. -/
theorem salted_kdf_matches_evp_bytes_to_key (P : Prims) (pass salt : Bytes)
    (ks bs n : Nat) (H : ∀ x, (P.md5 x).length = 16) (hs : salt.length = 8)
    (hn : ks + bs ≤ 16 * n) :
    saltedKeyAndIv P ks bs pass salt =
      Except.ok ((evpAcc P.md5 pass salt n).take ks,
        ((evpAcc P.md5 pass salt n).drop ks).take bs) := by
  rw [saltedKeyAndIv_spec P ks bs pass salt H hs]
  have hm : (ks + bs + 15) / 16 ≤ n := by omega
  have h1 : ks ≤ 16 * ((ks + bs + 15) / 16) := by omega
  have h2 : ks + bs ≤ 16 * ((ks + bs + 15) / 16) := by omega
  rw [evpAcc_take_agree P.md5 pass salt H hm h1,
    evpAcc_drop_take_agree P.md5 pass salt H hm h2]

/-- Witness for C2 at a concrete passphrase, salt and budget. -/
theorem salted_kdf_witness :
    (List.replicate 8 0 : Bytes).length = 8 ∧
    saltedKeyAndIv testPrims 8 8 [] (List.replicate 8 0) =
      Except.ok ((evpAcc testPrims.md5 [] (List.replicate 8 0) 1).take 8,
        ((evpAcc testPrims.md5 [] (List.replicate 8 0) 1).drop 8).take 8) :=
  ⟨by decide, salted_kdf_matches_evp_bytes_to_key testPrims [] (List.replicate 8 0) 8 8 1
    (fun _ => rfl) (by decide) (by omega)⟩

/-- C4: standard pad appends n bytes of value n with
n = B - len(d) mod B in [1, B]; standard unpad reads the last byte as n
and strips the last n bytes exactly when n is in [1, B] and those bytes
all equal n, returning the input unchanged otherwise (it never raises:
`unpadStandard` is a total function). -/
theorem standard_padding_correct (B : Nat) (hB : 1 ≤ B) (d data : Bytes) :
    (padStandard B d = d ++ List.replicate (B - d.length % B) (B - d.length % B) ∧
      1 ≤ B - d.length % B ∧ B - d.length % B ≤ B) ∧
    unpadStandard B data =
      (if 1 ≤ data.getLastD 0 ∧ data.getLastD 0 ≤ B ∧
          (pyTakeLast data (data.getLastD 0)).all (fun b => b == data.getLastD 0) = true
        then pyDropLast data (data.getLastD 0)
        else data) := by
  have hr : d.length % B < B := Nat.mod_lt _ (by omega)
  exact ⟨⟨rfl, by omega, by omega⟩, unpadStandard_eq B data⟩

/-- Witness for C4 at block size 8, a 5-byte input and a padded blob. -/
theorem standard_padding_witness :
    (1 : Nat) ≤ 8 ∧
    ((padStandard 8 [49, 50, 51, 52, 53] =
        [49, 50, 51, 52, 53] ++
          List.replicate (8 - [49, 50, 51, 52, 53].length % 8)
            (8 - [49, 50, 51, 52, 53].length % 8) ∧
      1 ≤ 8 - [49, 50, 51, 52, 53].length % 8 ∧
      8 - [49, 50, 51, 52, 53].length % 8 ≤ 8) ∧
    unpadStandard 8 [7, 3, 3, 3] =
      (if 1 ≤ [7, 3, 3, 3].getLastD 0 ∧ [7, 3, 3, 3].getLastD 0 ≤ 8 ∧
          (pyTakeLast [7, 3, 3, 3] ([7, 3, 3, 3].getLastD 0)).all
            (fun b => b == [7, 3, 3, 3].getLastD 0) = true
        then pyDropLast [7, 3, 3, 3] ([7, 3, 3, 3].getLastD 0)
        else [7, 3, 3, 3])) :=
  ⟨by decide, standard_padding_correct 8 (by decide) [49, 50, 51, 52, 53] [7, 3, 3, 3]⟩

/-- C7: decrypting input that does not start with the expected 8-byte
marker ("Salted__" in salt mode, "RandomIV" in randomiv mode) raises the
header ValueError (the specification's FormatError) and never returns a
plaintext. -/
theorem foreign_header_rejected (P : Prims) (cfg : Config) (ct : Bytes) :
    (cfg.headerMode = HeaderMode.salt → saltedMarker.isPrefixOf ct = false →
      decrypt P cfg ct =
        Except.error (PyErr.valueError ("Invalid ciphertext header for \x27salt\x27 mode"))) ∧
    (cfg.headerMode = HeaderMode.randomiv → randomivMarker.isPrefixOf ct = false →
      decrypt P cfg ct =
        Except.error (PyErr.valueError ("Invalid ciphertext header for \x27randomiv\x27 mode"))) := by
  constructor
  · intro hm hp
    unfold decrypt
    rw [hm]
    simp [hp, exceptBind_error]
  · intro hm hp
    unfold decrypt
    rw [hm]
    simp [hp, exceptBind_error]

/-- Witness for C7 at a concrete non-marker input. -/
theorem foreign_header_rejected_witness :
    (desCfg [] HeaderMode.salt Padding.standard Option.none Option.none).headerMode =
      HeaderMode.salt ∧
    saltedMarker.isPrefixOf [0, 1, 2] = false ∧
    decrypt testPrims (desCfg [] HeaderMode.salt Padding.standard Option.none Option.none)
        [0, 1, 2] =
      Except.error (PyErr.valueError ("Invalid ciphertext header for \x27salt\x27 mode")) :=
  ⟨rfl, by decide,
    (foreign_header_rejected testPrims
      (desCfg [] HeaderMode.salt Padding.standard Option.none Option.none) [0, 1, 2]).1
      rfl (by decide)⟩

/-- C9: constructing the engine with empty-bytes salt and IV succeeds
(the truthiness guard skips the length validation) and stores them; in
salt mode a later encrypt treats the empty salt exactly like an absent
one, substituting the fresh random draw; in header mode none, encrypt
and decrypt treat the empty IV as missing and raise. -/
theorem empty_salt_iv_semantics (P : Prims) (pass rand pt : Bytes)
    (hm : HeaderMode) (pd : Padding) :
    init pass ("DES") hm pd Option.none Option.none (Option.some []) (Option.some []) =
      Except.ok (desCfg pass hm pd (Option.some []) (Option.some [])) ∧
    encrypt P (desCfg pass HeaderMode.salt pd Option.none (Option.some [])) rand pt =
      encrypt P (desCfg pass HeaderMode.salt pd Option.none Option.none) rand pt ∧
    encrypt P (desCfg pass HeaderMode.none pd (Option.some []) Option.none) rand pt =
      Except.error
        (PyErr.valueError ("IV must be provided when using header_mode=\x27none\x27")) ∧
    decrypt P (desCfg pass HeaderMode.none pd (Option.some []) Option.none) pt =
      Except.error
        (PyErr.valueError ("IV must be provided when using header_mode=\x27none\x27")) :=
  ⟨rfl, rfl, rfl, rfl⟩

/-- C5 counterexample: constructing the engine with the AES cipher
(16-byte block) and RandomIV header mode succeeds — no error at
configuration time, contradicting the claim; the rejection only happens
at the encrypt call. -/
theorem randomiv_blocksize_config_counterexample :
    init [] ("AES") HeaderMode.randomiv Padding.standard Option.none Option.none
        Option.none Option.none =
      Except.ok ⟨[], HeaderMode.randomiv, Padding.standard, 32, 16, Option.none,
        Option.none, CipherName.aes⟩ ∧
    encrypt testPrims ⟨[], HeaderMode.randomiv, Padding.standard, 32, 16, Option.none,
        Option.none, CipherName.aes⟩ [] [] =
      Except.error (PyErr.valueError ("RandomIV mode requires 8-byte block cipher")) :=
  ⟨rfl, rfl⟩

/-- C5 amended: a RandomIV configuration with a non-8-byte block cipher
is accepted by the constructor and rejected with a ValueError at the
first encrypt call (before any key derivation or encryption). -/
theorem randomiv_blocksize_rejected_at_encrypt (P : Prims) (pass rand pt : Bytes)
    (pd : Padding) :
    init pass ("AES") HeaderMode.randomiv pd Option.none Option.none Option.none
        Option.none =
      Except.ok ⟨pass, HeaderMode.randomiv, pd, 32, 16, Option.none, Option.none,
        CipherName.aes⟩ ∧
    encrypt P ⟨pass, HeaderMode.randomiv, pd, 32, 16, Option.none, Option.none,
        CipherName.aes⟩ rand pt =
      Except.error (PyErr.valueError ("RandomIV mode requires 8-byte block cipher")) :=
  ⟨rfl, rfl⟩

/-- C6 counterexample: a supplied empty-bytes salt (length 0, not 8) and
a supplied empty-bytes IV (length 0, not the block size) are accepted by
the constructor without any error, because the length validation is
guarded by Python truthiness. -/
theorem empty_salt_iv_accepted_counterexample :
    init [] ("DES") HeaderMode.salt Padding.standard Option.none Option.none
        (Option.some []) (Option.some []) =
      Except.ok ⟨[], HeaderMode.salt, Padding.standard, 8, 8, Option.some [],
        Option.some [], CipherName.des⟩ :=
  rfl

/-- Reduction of `__init__` for the DES cipher to its two validation
checks. -/
theorem init_des_eq (pass : Bytes) (hm : HeaderMode) (pd : Padding)
    (ksz bsz : Option Nat) (iv salt : Option Bytes) :
    init pass ("DES") hm pd ksz bsz iv salt =
      (if (truthy iv && ((iv.getD []).length != pyOrNat bsz 8)) = true then
        Except.error
          (PyErr.valueError ("IV must be " ++ toString (pyOrNat bsz 8) ++ " bytes long"))
      else if (truthy salt && ((salt.getD []).length != 8)) = true then
        Except.error (PyErr.valueError ("Salt must be 8 bytes long"))
      else Except.ok ⟨pass, hm, pd, pyOrNat ksz 8, pyOrNat bsz 8, iv, salt,
        CipherName.des⟩) :=
  rfl

/-- C6 amended: every supplied non-empty salt whose length is not 8 and
every supplied non-empty IV whose length is not the configured block
size is rejected with a ValueError at construction; the salted key
derivation additionally rejects any salt (empty included) that is not
8 bytes at use time.  Empty-bytes values are exempt at construction
because Python truthiness treats them as absent. -/
theorem nonempty_salt_iv_length_validated (pass : Bytes) (hm : HeaderMode)
    (pd : Padding) (ksz bsz : Option Nat) (s i : Bytes) :
    (s ≠ [] → s.length ≠ 8 →
      init pass ("DES") hm pd ksz bsz Option.none (Option.some s) =
        Except.error (PyErr.valueError ("Salt must be 8 bytes long"))) ∧
    (i ≠ [] → i.length ≠ pyOrNat bsz 8 →
      init pass ("DES") hm pd ksz bsz (Option.some i) Option.none =
        Except.error
          (PyErr.valueError ("IV must be " ++ toString (pyOrNat bsz 8) ++ " bytes long"))) ∧
    (∀ (P : Prims) (ks bs : Nat) (salt2 : Bytes), salt2.length ≠ 8 →
      saltedKeyAndIv P ks bs pass salt2 =
        Except.error (PyErr.valueError ("Salt must be 8 bytes long"))) := by
  refine ⟨?_, ?_, ?_⟩
  · intro hne hlen
    rw [init_des_eq]
    rw [if_neg (by simp [truthy])]
    rw [if_pos (by simp [truthy, hne, hlen])]
  · intro hne hlen
    rw [init_des_eq]
    rw [if_pos (by simp [truthy, hne, hlen])]
  · intro P ks bs salt2 hlen
    unfold saltedKeyAndIv
    rw [if_pos hlen]

/-- Witness for C6 (amended) at concrete wrong-length values. -/
theorem nonempty_salt_iv_length_validated_witness :
    ([9] : Bytes) ≠ [] ∧ ([9] : Bytes).length ≠ 8 ∧
    init [] ("DES") HeaderMode.salt Padding.standard Option.none Option.none
        Option.none (Option.some [9]) =
      Except.error (PyErr.valueError ("Salt must be 8 bytes long")) :=
  ⟨by decide, by decide,
    (nonempty_salt_iv_length_validated [] HeaderMode.salt Padding.standard
      Option.none Option.none [9] [9]).1 (by decide) (by decide)⟩

/-- C10: a well-formed hex token (valid hex, correct "Salted__" framing,
block-aligned ciphertext) exists for which `decrypt_guardian_token`
raises a UnicodeDecodeError from the final `.decode()` — an error
outside the ValueError family the cipher module itself raises — instead
of a typed cipher error or the garbage bytes.  Shown at an explicit
instantiation of the hash/cipher primitives satisfying all their
contracts. -/
theorem guardian_decrypt_unicode_error :
    decryptGuardianToken testPrims [9]
      (bytesToHex ((saltedMarker ++ List.replicate 8 0) ++ List.replicate 8 255)) =
      Except.error PyErr.unicodeDecodeError ∧
    (∀ msg, PyErr.unicodeDecodeError ≠ PyErr.valueError msg) :=
  ⟨rfl, fun _ h => PyErr.noConfusion h⟩

/-- C3 counterexample: with null padding, the plaintext [0x00] is not
recovered: encrypt-then-decrypt (None header with an explicit IV, at an
instantiation of the block cipher satisfying the inverse contract)
returns the empty byte string, because `_unpad_null` rstrips the
plaintext's own trailing zero together with the padding. -/
theorem roundtrip_counterexample :
    (encrypt testPrims (desCfg [] HeaderMode.none Padding.null
        (Option.some [0, 0, 0, 0, 0, 0, 0, 0]) Option.none) [] [0]) >>=
      decrypt testPrims (desCfg [] HeaderMode.none Padding.null
        (Option.some [0, 0, 0, 0, 0, 0, 0, 0]) Option.none) = Except.ok [] ∧
    ([] : Bytes) ≠ [0] :=
  ⟨rfl, by decide⟩

/-- C3 amended: the encrypt/decrypt round-trip holds for every plaintext
with Standard padding, and with Null/Space padding whenever the
plaintext does not end in the pad byte (0x00 / 0x20), for every header
mode in {Salted, RandomIV, None} with an 8-byte random draw and an
8-byte explicit IV on both sides. -/
theorem roundtrip_amended (P : Prims) (pass rand iv0 p : Bytes)
    (hm : HeaderMode) (pd : Padding)
    (Hm16 : ∀ x, (P.md5 x).length = 16)
    (HencLen : ∀ k b, b.length = 8 → (P.blockEnc k b).length = 8)
    (Hdec : ∀ k b, b.length = 8 → P.blockDec k (P.blockEnc k b) = b)
    (hrand : rand.length = 8) (hiv0 : iv0.length = 8)
    (hpad : pd = Padding.standard ∨ (pd = Padding.null ∧ p.getLast? ≠ Option.some 0) ∨
      (pd = Padding.space ∧ p.getLast? ≠ Option.some 32)) :
    (encrypt P (desCfg pass hm pd (Option.some iv0) Option.none) rand p) >>=
      decrypt P (desCfg pass hm pd (Option.some iv0) Option.none) = Except.ok p := by
  have hne : iv0 ≠ [] := by
    intro h
    rw [h] at hiv0
    simp at hiv0
  have hivor : pyOrBytes (Option.some iv0) rand = iv0 := by
    simp [pyOrBytes, hne]
  apply encrypt_decrypt_roundtrip P _ rand p rfl rfl Hm16 HencLen Hdec
  · intro _
    exact hrand
  · intro _
    show (pyOrBytes (Option.some iv0) rand).length = 8
    rw [hivor]
    exact hiv0
  · intro _
    refine ⟨?_, hiv0⟩
    show truthy (Option.some iv0) = true
    simp [truthy, hne]
  · exact hpad

/-- Witness for C3 (amended) at a concrete salt-mode configuration. -/
theorem roundtrip_amended_witness :
    ([7, 7, 7, 7, 7, 7, 7, 7] : Bytes).length = 8 ∧
    (encrypt testPrims (desCfg [] HeaderMode.salt Padding.standard
        (Option.some [1, 2, 3, 4, 5, 6, 7, 8]) Option.none) [7, 7, 7, 7, 7, 7, 7, 7]
        [49, 50]) >>=
      decrypt testPrims (desCfg [] HeaderMode.salt Padding.standard
        (Option.some [1, 2, 3, 4, 5, 6, 7, 8]) Option.none) = Except.ok [49, 50] :=
  ⟨by decide,
    roundtrip_amended testPrims [] [7, 7, 7, 7, 7, 7, 7, 7] [1, 2, 3, 4, 5, 6, 7, 8]
      [49, 50] HeaderMode.salt Padding.standard (fun _ => rfl) (fun _ _ hb => hb)
      (fun _ _ _ => rfl) (by decide) (by decide) (Or.inl rfl)⟩

/-- C8: (1) after every successful encrypt, the bytes following the
header are a multiple of the cipher block size; (2) decrypt of any input
whose ciphertext portion (the bytes after the 16 header bytes that salt
and randomiv modes consume, or the whole input for header mode none) is
not a multiple of the block size returns an error and never a
plaintext. -/
theorem ciphertext_block_aligned (P : Prims) (cfg : Config) (rand pt out ct2 : Bytes)
    (HencLen : ∀ k b, b.length = cfg.cipherClass.blocksizeOf →
      (P.blockEnc k b).length = cfg.cipherClass.blocksizeOf) :
    (encrypt P cfg rand pt = Except.ok out →
      (out.drop (encHeaderLen cfg)).length % cfg.cipherClass.blocksizeOf = 0) ∧
    ((ct2.drop (decHeaderLen cfg.headerMode)).length % cfg.cipherClass.blocksizeOf ≠ 0 →
      ∃ e, decrypt P cfg ct2 = Except.error e) := by
  have hb : 0 < cfg.cipherClass.blocksizeOf := by
    cases cfg.cipherClass <;> simp [CipherName.blocksizeOf]
  constructor
  · intro hsucc
    cases hm : cfg.headerMode with
    | salt =>
      cases hk : saltedKeyAndIv P cfg.keysize cfg.blocksize cfg.passphrase
          (pyOrBytes cfg.salt rand) with
      | error e =>
        rw [show encrypt P cfg rand pt = Except.error e from by
          unfold encrypt; rw [hm]; simp [hk, exceptBind_error]] at hsucc
        cases hsucc
      | ok kv =>
        obtain ⟨key, iv⟩ := kv
        cases hp : pad cfg pt with
        | error e =>
          rw [show encrypt P cfg rand pt = Except.error e from by
            unfold encrypt; rw [hm]
            simp [hk, hp, exceptBind_error, exceptBind_ok]] at hsucc
          cases hsucc
        | ok padded =>
          cases hc : cbcEncrypt P cfg.cipherClass key iv padded with
          | error e =>
            rw [show encrypt P cfg rand pt = Except.error e from by
              unfold encrypt; rw [hm]
              simp [hk, hp, hc, exceptBind_error, exceptBind_ok]] at hsucc
            cases hsucc
          | ok ct =>
            rw [encrypt_salt_eq P cfg rand pt hm hk hp hc] at hsucc
            have hout : out = (saltedMarker ++ pyOrBytes cfg.salt rand) ++ ct :=
              ((Except.ok.injEq _ _).mp hsucc).symm
            obtain ⟨hiv, hmod, hctdef⟩ := cbcEncrypt_ok_inv P cfg.cipherClass key iv padded hc
            have hslen : (pyOrBytes cfg.salt rand).length = 8 :=
              saltedKeyAndIv_ok_salt_len P _ _ _ _ hk
            have hctlen : ct.length = padded.length := by
              rw [hctdef]
              exact cbcEncAux_length P key hb HencLen _ iv padded (le_refl _) hiv
                (Nat.dvd_of_mod_eq_zero hmod)
            have hhd : (saltedMarker ++ pyOrBytes cfg.salt rand).length = 16 := by
              rw [List.length_append, hslen]
              rfl
            have hdrop : out.drop (encHeaderLen cfg) = ct := by
              rw [hout, show encHeaderLen cfg = 16 from by unfold encHeaderLen; rw [hm],
                ← hhd]
              exact List.drop_left _ _
            rw [hdrop, hctlen]
            exact hmod
    | randomiv =>
      by_cases hbs8 : cfg.blocksize = 8
      · cases hp : pad cfg pt with
        | error e =>
          rw [show encrypt P cfg rand pt = Except.error e from by
            unfold encrypt; rw [hm]
            simp [hbs8, hp, exceptBind_error, exceptBind_ok]] at hsucc
          cases hsucc
        | ok padded =>
          cases hc : cbcEncrypt P cfg.cipherClass
              (keyFromPassphrase P cfg.keysize cfg.passphrase)
              (pyOrBytes cfg.iv rand) padded with
          | error e =>
            rw [show encrypt P cfg rand pt = Except.error e from by
              unfold encrypt; rw [hm]
              simp [hbs8, hp, hc, exceptBind_error, exceptBind_ok]] at hsucc
            cases hsucc
          | ok ct =>
            rw [encrypt_randomiv_eq P cfg rand pt hm hbs8 hp hc] at hsucc
            have hout : out = (randomivMarker ++ pyOrBytes cfg.iv rand) ++ ct :=
              ((Except.ok.injEq _ _).mp hsucc).symm
            obtain ⟨hiv, hmod, hctdef⟩ := cbcEncrypt_ok_inv P cfg.cipherClass _ _ padded hc
            have hctlen : ct.length = padded.length := by
              rw [hctdef]
              exact cbcEncAux_length P _ hb HencLen _ _ padded (le_refl _) hiv
                (Nat.dvd_of_mod_eq_zero hmod)
            have hhd : (randomivMarker ++ pyOrBytes cfg.iv rand).length =
                8 + cfg.cipherClass.blocksizeOf := by
              rw [List.length_append, hiv]
              rfl
            have hdrop : out.drop (encHeaderLen cfg) = ct := by
              rw [hout, show encHeaderLen cfg = 8 + cfg.cipherClass.blocksizeOf from by
                unfold encHeaderLen; rw [hm], ← hhd]
              exact List.drop_left _ _
            rw [hdrop, hctlen]
            exact hmod
      · rw [show encrypt P cfg rand pt =
            Except.error (PyErr.valueError ("RandomIV mode requires 8-byte block cipher"))
            from by
          unfold encrypt; rw [hm]
          simp [hbs8, exceptBind_error]] at hsucc
        cases hsucc
    | none =>
      cases htr : truthy cfg.iv with
      | false =>
        rw [show encrypt P cfg rand pt =
            Except.error
              (PyErr.valueError ("IV must be provided when using header_mode=\x27none\x27"))
            from by
          unfold encrypt; rw [hm]
          simp [htr, exceptBind_error]] at hsucc
        cases hsucc
      | true =>
        cases hp : pad cfg pt with
        | error e =>
          rw [show encrypt P cfg rand pt = Except.error e from by
            unfold encrypt; rw [hm]
            simp [htr, hp, exceptBind_error, exceptBind_ok]] at hsucc
          cases hsucc
        | ok padded =>
          cases hc : cbcEncrypt P cfg.cipherClass
              (keyFromPassphrase P cfg.keysize cfg.passphrase) (cfg.iv.getD []) padded with
          | error e =>
            rw [show encrypt P cfg rand pt = Except.error e from by
              unfold encrypt; rw [hm]
              simp [htr, hp, hc, exceptBind_error, exceptBind_ok]] at hsucc
            cases hsucc
          | ok ct =>
            rw [encrypt_none_eq P cfg rand pt hm htr hp hc] at hsucc
            have hout : out = ct := ((Except.ok.injEq _ _).mp hsucc).symm
            obtain ⟨hiv, hmod, hctdef⟩ := cbcEncrypt_ok_inv P cfg.cipherClass _ _ padded hc
            have hctlen : ct.length = padded.length := by
              rw [hctdef]
              exact cbcEncAux_length P _ hb HencLen _ _ padded (le_refl _) hiv
                (Nat.dvd_of_mod_eq_zero hmod)
            have hdrop : out.drop (encHeaderLen cfg) = ct := by
              rw [hout, show encHeaderLen cfg = 0 from by unfold encHeaderLen; rw [hm]]
              exact List.drop_zero ct
            rw [hdrop, hctlen]
            exact hmod
  · intro hnal
    cases hm : cfg.headerMode with
    | salt =>
      rw [hm] at hnal
      cases hpre : saltedMarker.isPrefixOf ct2 with
      | false =>
        exact ⟨PyErr.valueError ("Invalid ciphertext header for \x27salt\x27 mode"),
          by unfold decrypt; rw [hm]; simp [hpre, exceptBind_error]⟩
      | true =>
        cases hk : saltedKeyAndIv P cfg.keysize cfg.blocksize cfg.passphrase
            ((ct2.drop 8).take 8) with
        | error e =>
          exact ⟨e, by unfold decrypt; rw [hm]; simp [hpre, hk, exceptBind_error]⟩
        | ok kv =>
          obtain ⟨key, iv⟩ := kv
          obtain ⟨e, he⟩ := cbcDecrypt_not_aligned P cfg.cipherClass key iv
            (ct2.drop 16) hnal
          exact ⟨e, by
            unfold decrypt; rw [hm]
            simp [hpre, hk, he, exceptBind_ok, exceptBind_error]⟩
    | randomiv =>
      rw [hm] at hnal
      cases hpre : randomivMarker.isPrefixOf ct2 with
      | false =>
        exact ⟨PyErr.valueError ("Invalid ciphertext header for \x27randomiv\x27 mode"),
          by unfold decrypt; rw [hm]; simp [hpre, exceptBind_error]⟩
      | true =>
        obtain ⟨e, he⟩ := cbcDecrypt_not_aligned P cfg.cipherClass
          (keyFromPassphrase P cfg.keysize cfg.passphrase) ((ct2.drop 8).take 8)
          (ct2.drop 16) hnal
        exact ⟨e, by
          unfold decrypt; rw [hm]
          simp [hpre, he, exceptBind_ok, exceptBind_error]⟩
    | none =>
      rw [hm] at hnal
      cases htr : truthy cfg.iv with
      | false =>
        exact ⟨PyErr.valueError ("IV must be provided when using header_mode=\x27none\x27"),
          by unfold decrypt; rw [hm]; simp [htr, exceptBind_error]⟩
      | true =>
        have hnal2 : ct2.length % cfg.cipherClass.blocksizeOf ≠ 0 := by
          simpa [decHeaderLen] using hnal
        obtain ⟨e, he⟩ := cbcDecrypt_not_aligned P cfg.cipherClass
          (keyFromPassphrase P cfg.keysize cfg.passphrase) (cfg.iv.getD []) ct2 hnal2
        exact ⟨e, by
          unfold decrypt; rw [hm]
          simp [htr, he, exceptBind_ok, exceptBind_error]⟩

/-- Witness for C8 at a concrete salt-mode encryption. -/
theorem ciphertext_block_aligned_witness :
    (encrypt testPrims (desCfg [] HeaderMode.salt Padding.standard Option.none
        Option.none) [7, 7, 7, 7, 7, 7, 7, 7] [9] =
      Except.ok [83, 97, 108, 116, 101, 100, 95, 95, 7, 7, 7, 7, 7, 7, 7, 7,
        9, 7, 7, 7, 7, 7, 7, 7] →
      (([83, 97, 108, 116, 101, 100, 95, 95, 7, 7, 7, 7, 7, 7, 7, 7,
        9, 7, 7, 7, 7, 7, 7, 7] : Bytes).drop
          (encHeaderLen (desCfg [] HeaderMode.salt Padding.standard Option.none
            Option.none))).length %
        (desCfg [] HeaderMode.salt Padding.standard Option.none
          Option.none).cipherClass.blocksizeOf = 0) ∧
    ((([83, 97, 108, 116, 101, 100, 95, 95, 1] : Bytes).drop
        (decHeaderLen (desCfg [] HeaderMode.salt Padding.standard Option.none
          Option.none).headerMode)).length %
        (desCfg [] HeaderMode.salt Padding.standard Option.none
          Option.none).cipherClass.blocksizeOf ≠ 0 →
      ∃ e, decrypt testPrims (desCfg [] HeaderMode.salt Padding.standard Option.none
        Option.none) [83, 97, 108, 116, 101, 100, 95, 95, 1] = Except.error e) :=
  ciphertext_block_aligned testPrims
    (desCfg [] HeaderMode.salt Padding.standard Option.none Option.none)
    [7, 7, 7, 7, 7, 7, 7, 7] [9]
    [83, 97, 108, 116, 101, 100, 95, 95, 7, 7, 7, 7, 7, 7, 7, 7, 9, 7, 7, 7, 7, 7, 7, 7]
    [83, 97, 108, 116, 101, 100, 95, 95, 1] (fun _ _ hb => hb)

/-- C1: for every identifier byte string s (valid UTF-8, as produced by
encoding a Python str) and every passphrase,
decrypt_guardian_token(encrypt_guardian_token(s, p), p) returns s — the
helpers fix the DES cipher (8-byte block), Salted header, Standard
padding and lowercase-hex transport — and for the 5-byte identifier
"12345" the hex string has length 16*2 + 8*2 = 48.  Parametrized over
the MD5/DES primitives through their length, byte-range and inverse
contracts. -/
theorem guardian_token_roundtrip_and_length (P : Prims) (pass rand s : Bytes)
    (Hm16 : ∀ x, (P.md5 x).length = 16)
    (Hm256 : ∀ x, ∀ b ∈ P.md5 x, b < 256)
    (HencLen : ∀ k b, b.length = 8 → (P.blockEnc k b).length = 8)
    (Henc256 : ∀ k b, b.length = 8 → (∀ x ∈ b, x < 256) → ∀ x ∈ P.blockEnc k b, x < 256)
    (Hdec : ∀ k b, b.length = 8 → P.blockDec k (P.blockEnc k b) = b)
    (hrand : rand.length = 8) (hrand256 : ∀ x ∈ rand, x < 256)
    (hs : utf8Valid s = true) (hs256 : ∀ x ∈ s, x < 256) :
    (encryptGuardianToken P rand pass s) >>= decryptGuardianToken P pass =
      Except.ok s ∧
    (encryptGuardianToken P rand pass [49, 50, 51, 52, 53]).map List.length =
      Except.ok 48 := by
  constructor
  · obtain ⟨key, iv, ct, hkdf, hklen, hilen, hivdef, hcbc, hctdef, hctlen, hencall⟩ :=
      guardian_parts P pass rand s Hm16 HencLen hrand
    have hdvd : (8 : Nat) ∣ (padStandard 8 s).length :=
      dvd_length_padStandard (by norm_num) s
    obtain ⟨_, hdecct⟩ := cbc_roundtrip P CipherName.des key iv (padStandard 8 s)
      HencLen Hdec hilen hdvd
    rw [show CipherName.des.blocksizeOf = 8 from rfl] at hdecct
    rw [← hctdef] at hdecct
    have hiv256 : ∀ x ∈ iv, x < 256 := by
      rw [hivdef]
      intro x hx
      exact evpAcc_lt P.md5 pass rand Hm256 1 x
        (List.mem_of_mem_drop (List.mem_of_mem_take hx))
    have hpad256 : ∀ x ∈ padStandard 8 s, x < 256 := by
      intro x hx
      rcases List.mem_append.mp hx with hx | hx
      · exact hs256 x hx
      · rw [List.mem_replicate] at hx
        omega
    have hct256 : ∀ x ∈ ct, x < 256 := by
      rw [hctdef]
      exact cbcEncAux_lt P key (by norm_num) HencLen Henc256 _ iv (padStandard 8 s)
        hilen hiv256 hpad256 hdvd
    have hout256 : ∀ x ∈ (saltedMarker ++ rand) ++ ct, x < 256 := by
      intro x hx
      rcases List.mem_append.mp hx with hx | hx
      · rcases List.mem_append.mp hx with hx | hx
        · exact saltedMarker_lt x hx
        · exact hrand256 x hx
      · exact hct256 x hx
    have hhex : hexToBytes (bytesToHex ((saltedMarker ++ rand) ++ ct)) =
        Except.ok ((saltedMarker ++ rand) ++ ct) :=
      hexToBytes_bytesToHex _ hout256
    have hdecout : decrypt P (desCfg pass HeaderMode.salt Padding.standard Option.none
        Option.none) ((saltedMarker ++ rand) ++ ct) = Except.ok s := by
      rw [decrypt_salt_eq P (desCfg pass HeaderMode.salt Padding.standard Option.none
          Option.none) rand ct rfl hrand hkdf hdecct,
        show unpad (desCfg pass HeaderMode.salt Padding.standard Option.none Option.none)
          (padStandard 8 s) = unpadStandard 8 (padStandard 8 s) from rfl,
        unpadStandard_padStandard (by norm_num) s]
    have he : encryptGuardianToken P rand pass s =
        Except.ok (bytesToHex ((saltedMarker ++ rand) ++ ct)) := by
      unfold encryptGuardianToken
      rw [init_guardian pass]
      simp only [exceptBind_ok]
      rw [hencall]
      simp only [exceptBind_ok]
    rw [he, exceptBind_ok]
    unfold decryptGuardianToken
    rw [init_guardian pass]
    simp only [exceptBind_ok]
    rw [hhex]
    simp only [exceptBind_ok]
    rw [hdecout]
    simp only [exceptBind_ok]
    rw [if_pos hs]
  · obtain ⟨key2, iv2, ct2, hkdf2, hklen2, hilen2, hivdef2, hcbc2, hctdef2, hctlen2,
      hencall2⟩ := guardian_parts P pass rand [49, 50, 51, 52, 53] Hm16 HencLen hrand
    have he2 : encryptGuardianToken P rand pass [49, 50, 51, 52, 53] =
        Except.ok (bytesToHex ((saltedMarker ++ rand) ++ ct2)) := by
      unfold encryptGuardianToken
      rw [init_guardian pass]
      simp only [exceptBind_ok]
      rw [hencall2]
      simp only [exceptBind_ok]
    rw [he2, exceptMap_ok]
    have hlen : ((saltedMarker ++ rand) ++ ct2).length = 24 := by
      rw [List.length_append, List.length_append, hrand, hctlen2]
      rfl
    rw [length_bytesToHex, hlen]

/-- Witness for C1 at the identifier "12345", a concrete passphrase and
a concrete random draw, with the identity-permutation instantiation of
the primitives. -/
theorem guardian_token_roundtrip_witness :
    utf8Valid [49, 50, 51, 52, 53] = true ∧
    (encryptGuardianToken testPrims [7, 7, 7, 7, 7, 7, 7, 7] [9] [49, 50, 51, 52, 53]) >>=
      decryptGuardianToken testPrims [9] = Except.ok [49, 50, 51, 52, 53] ∧
    (encryptGuardianToken testPrims [7, 7, 7, 7, 7, 7, 7, 7] [9]
      [49, 50, 51, 52, 53]).map List.length = Except.ok 48 :=
  ⟨by decide,
    (guardian_token_roundtrip_and_length testPrims [9] [7, 7, 7, 7, 7, 7, 7, 7]
      [49, 50, 51, 52, 53] (fun _ => rfl) (fun _ b hb => by
        simp [testPrims, List.mem_replicate] at hb
        omega)
      (fun _ _ hb => hb) (fun _ _ _ h x hx => h x hx) (fun _ _ _ => rfl) (by decide)
      (by decide) (by decide) (by decide)).1,
    (guardian_token_roundtrip_and_length testPrims [9] [7, 7, 7, 7, 7, 7, 7, 7]
      [49, 50, 51, 52, 53] (fun _ => rfl) (fun _ b hb => by
        simp [testPrims, List.mem_replicate] at hb
        omega)
      (fun _ _ hb => hb) (fun _ _ _ h x hx => h x hx) (fun _ _ _ => rfl) (by decide)
      (by decide) (by decide) (by decide)).2⟩

end PenhasCrypto
